import Mathlib

/-!
Shallow embedding of the HelixiaDB JSON document store (helixia.db).

The primary embedding follows the cached-in-memory variant of the class
`HelixiaDB` (src/unnamed/part_003): the store keeps the whole document in
memory, every mutating operation updates the document and synchronously
rewrites the backing file, and shape violations are reported as thrown
`DatabaseError`s.  The reload-per-operation variant (src/index.js) is
embedded separately where a claim depends on it (its `math` performs a
division-by-zero check that the cached variant omits).

Modelling conventions:
* JavaScript numbers are modelled exactly: finite values as rationals,
  plus `Infinity`, `-Infinity` and `NaN`.  IEEE-754 rounding is outside
  the model (arithmetic on finite values is exact); every actual
  JavaScript number is a dyadic rational, so every value a real run can
  store has a finite decimal expansion and is rendered exactly.
* A JavaScript object is an insertion-ordered association list with
  unique keys; `undefined` is not a storable value, so an absent
  property is `Option.none`.
* Strict equality (`===`) on two non-primitive values compares object
  references.  The pure model has no heap, so the probe value handed to
  `delete`/`deleteEach` is treated as a fresh reference: it is never
  reference-identical to a stored object, and `===` on it against any
  stored object or array is `false`.
* The filesystem is a mapping from paths to file contents (strings);
  `fs.writeFileSync` replaces the whole file, `fs.unlinkSync` removes
  the entry (and throws if it is absent).
-/

namespace Helixia

/-- A JavaScript number: a finite value (exact rational), one of the two
infinities, or `NaN`.  Finite arithmetic is exact; IEEE-754 rounding is
outside the model. -/
inductive JNum where
  | fin (q : ℚ)
  | posInf
  | negInf
  | nan
deriving DecidableEq, Repr

/-- A JSON-representable JavaScript value as stored in the document:
`null`, booleans, numbers, strings, arrays and plain objects.  Objects
are insertion-ordered association lists. -/
inductive Value where
  | vNull
  | vBool (b : Bool)
  | vNum (n : JNum)
  | vStr (s : String)
  | vArr (elems : List Value)
  | vObj (fields : List (String × Value))
deriving Repr

mutual

/-- Structural (deep) equality of values, written by hand because the
derive handler does not support this nested inductive. -/
def beqV : Value → Value → Bool
  | .vNull, .vNull => true
  | .vBool a, .vBool b => a == b
  | .vNum a, .vNum b => a == b
  | .vStr a, .vStr b => a == b
  | .vArr a, .vArr b => beqVL a b
  | .vObj a, .vObj b => beqVO a b
  | _, _ => false

/-- Deep equality of element lists. -/
def beqVL : List Value → List Value → Bool
  | [], [] => true
  | a :: as, b :: bs => beqV a b && beqVL as bs
  | _, _ => false

/-- Deep equality of field lists. -/
def beqVO : List (String × Value) → List (String × Value) → Bool
  | [], [] => true
  | (k, a) :: as, (l, b) :: bs => k == l && beqV a b && beqVO as bs
  | _, _ => false

end


/-- The in-memory document: the top-level JavaScript object. -/
abbrev Doc := List (String × Value)

/-- JavaScript truthiness of a stored value: `null`, `false`, `0`, `NaN`
and the empty string are falsy; every object and array is truthy. -/
def truthy : Value → Bool
  | .vNull => false
  | .vBool b => b
  | .vNum (.fin q) => !(q == 0)
  | .vNum .nan => false
  | .vNum _ => true
  | .vStr s => !(s == "")
  | .vArr _ => true
  | .vObj _ => true

/-- Equality of two JavaScript numbers under `===`: `NaN` compares
unequal to everything, including itself. -/
def jnumEq : JNum → JNum → Bool
  | .fin a, .fin b => a == b
  | .posInf, .posInf => true
  | .negInf, .negInf => true
  | _, _ => false

/-- Strict equality `===` between a stored element and the probe value
passed by the caller.  Primitives compare by value; a stored object or
array is never reference-identical to the freshly supplied probe, so any
comparison involving a non-primitive is `false` (see the module
comment). -/
def strictEq : Value → Value → Bool
  | .vNull, .vNull => true
  | .vBool a, .vBool b => a == b
  | .vNum a, .vNum b => jnumEq a b
  | .vStr a, .vStr b => a == b
  | _, _ => false

/-- Whether a value is non-primitive (an object or an array), the kind
compared by reference under `===`. -/
def isNonPrim : Value → Bool
  | .vArr _ => true
  | .vObj _ => true
  | _ => false

/-- Whether a value is a primitive other than `NaN`, the kind `===`
compares by value. -/
def isPrimNonNan : Value → Bool
  | .vNull => true
  | .vBool _ => true
  | .vStr _ => true
  | .vNum .nan => false
  | .vNum _ => true
  | _ => false

/-- Whether `typeof v` is the string `'object'`: true for objects,
arrays and `null` (the classic JavaScript quirk), false for every other
value. -/
def typeofIsObject : Option Value → Bool
  | some (.vObj _) => true
  | some (.vArr _) => true
  | some .vNull => true
  | _ => false

/-- Property read on an object: the value of the first entry with the
given key, or `none` when the property is absent. -/
def objGet : List (String × Value) → String → Option Value
  | [], _ => none
  | (k, v) :: t, key => if k == key then some v else objGet t key

/-- Property assignment `o[key] = v`: overwrite the existing entry in
place, or append a new one (JavaScript keeps insertion order). -/
def objSet : List (String × Value) → String → Value → List (String × Value)
  | [], key, v => [(key, v)]
  | (k, w) :: t, key, v => if k == key then (k, v) :: t else (k, w) :: objSet t key v

/-- Property deletion `delete o[key]`.  A real JavaScript object holds
each key at most once; on such lists this removes the single matching
entry. -/
def objRemove : List (String × Value) → String → List (String × Value)
  | [], _ => []
  | (k, w) :: t, key => if k == key then objRemove t key else (k, w) :: objRemove t key

/-- Uniqueness of the keys of an association list, as the invariant
every real JavaScript object satisfies. -/
def keysUnique : List (String × Value) → Bool
  | [] => true
  | (k, _) :: t => (objGet t k).isNone && keysUnique t

/-- The modelled filesystem: a list of `(path, contents)` entries. -/
abbrev FS := List (String × String)

/-- Contents of the file at `path`, if it exists. -/
def fsRead : FS → String → Option String
  | [], _ => none
  | (p, s) :: t, path => if p == path then some s else fsRead t path

/-- Whole-file replacement write (`fs.writeFileSync`). -/
def fsWrite : FS → String → String → FS
  | [], path, s => [(path, s)]
  | (p, c) :: t, path, s => if p == path then (p, s) :: t else (p, c) :: fsWrite t path s

/-- File removal (`fs.unlinkSync`), assuming the file exists. -/
def fsUnlink : FS → String → FS
  | [], _ => []
  | (p, c) :: t, path => if p == path then fsUnlink t path else (p, c) :: fsUnlink t path

/-- Existence test (`fs.existsSync`). -/
def fsExists (fs : FS) (path : String) : Bool := (fsRead fs path).isSome

/-! ### Serialization: the exact output of `JSON.stringify(data, null, 2)`

The store persists with a two-space pretty printer.  Numbers follow
`String(n)`: finite values print as plain decimals and the non-finite
values `Infinity`, `-Infinity` and `NaN` serialize as `null` (that is
what `JSON.stringify` does to them).  Every value a JavaScript program
can actually hold is a dyadic rational, hence has a finite decimal
expansion; a rational with a different denominator corresponds to no
JavaScript number, and that unreachable case also falls back to
`null`. -/

/-- The digit character for `k < 10`. -/
def digitChar (k : Nat) : Char := Char.ofNat (48 + k)

/-- Decimal digits of `n`, least significant first, by recursion on a
fuel bound (structural, so the kernel evaluates it); `n < fuel` always
holds at the call sites, making the zero-fuel arm unreachable. -/
def natDigitsRevAux : Nat → Nat → List Char
  | 0, _ => []
  | fuel + 1, n =>
      if n < 10 then [digitChar n]
      else digitChar (n % 10) :: natDigitsRevAux fuel (n / 10)

/-- Decimal digits of `n`, least significant first. -/
def natDigitsRev (n : Nat) : List Char := natDigitsRevAux (n + 1) n

/-- Decimal digits of `n`, most significant first. -/
def digitsOf (n : Nat) : List Char := (natDigitsRev n).reverse

/-- Multiplicity of the prime `p` in `n`, by recursion on a fuel bound
(`n` itself bounds the number of divisions). -/
def countFacAux : Nat → Nat → Nat → Nat
  | 0, _, _ => 0
  | fuel + 1, p, n =>
      if 2 ≤ p ∧ 0 < n ∧ n % p = 0 then countFacAux fuel p (n / p) + 1 else 0

/-- Multiplicity of the prime `p` in `n` (zero when `p < 2` or `n = 0`). -/
def countFac (p n : Nat) : Nat := countFacAux n p n

/-- Scale a rational to an integer over a power of ten: `q = m / 10 ^ e`
with `e` the least exponent clearing the denominator.  Returns `none`
when the denominator has a prime factor other than 2 and 5, which no
JavaScript number exhibits. -/
def ratScale : ℚ → Option (Int × Nat) := fun q =>
  if (q.den : Int) ∣ 10 ^ (max (countFac 2 q.den) (countFac 5 q.den)) then
    some (q.num * ((10 ^ (max (countFac 2 q.den) (countFac 5 q.den)) : Int) / (q.den : Int)),
      max (countFac 2 q.den) (countFac 5 q.den))
  else none

/-- Render `m / 10 ^ e` as a decimal numeral the way `String(n)` prints
a finite number: optional minus sign, integer part, and a fractional
part exactly when `e > 0`. -/
def renderDec (m : Int) (e : Nat) : List Char :=
  let a := m.natAbs
  let ip := a / 10 ^ e
  let fp := a % 10 ^ e
  (if m < 0 then ['-'] else []) ++ digitsOf ip ++
    (if e = 0 then []
     else '.' :: (List.replicate (e - (digitsOf fp).length) '0' ++ digitsOf fp))

/-- Serialization of one number.  `JSON.stringify` turns `Infinity`,
`-Infinity` and `NaN` into `null`. -/
def renderNum : JNum → List Char
  | .fin q =>
      match ratScale q with
      | some (m, e) => renderDec m e
      | none => "null".data
  | _ => "null".data

/-- JSON string escaping of one character, as `JSON.stringify` performs
it: the two mandatory escapes, the five short control escapes, and
`\u00XX` for the remaining control characters. -/
def escChar (c : Char) : List Char :=
  if c == '"' then ['\\', '"']
  else if c == '\\' then ['\\', '\\']
  else if c == Char.ofNat 8 then ['\\', 'b']
  else if c == '\t' then ['\\', 't']
  else if c == '\n' then ['\\', 'n']
  else if c == Char.ofNat 12 then ['\\', 'f']
  else if c == Char.ofNat 13 then ['\\', 'r']
  else if c.toNat < 32 then
    ['\\', 'u', '0', '0', digitChar16 (c.toNat / 16), digitChar16 (c.toNat % 16)]
  else [c]
where
  /-- Lower-case hexadecimal digit. -/
  digitChar16 (k : Nat) : Char :=
    if k < 10 then Char.ofNat (48 + k) else Char.ofNat (87 + k)

/-- A quoted, escaped JSON string literal. -/
def quoteStr (s : String) : List Char := '"' :: (s.data.flatMap escChar ++ ['"'])

/-- The opening brace character (kept out of literals on purpose). -/
def lcur : Char := Char.ofNat 123

/-- The closing brace character. -/
def rcur : Char := Char.ofNat 125

/-- A newline followed by `n` spaces: the pretty printer's line break at
indentation level `n`. -/
def nlInd (n : Nat) : List Char := '\n' :: List.replicate n ' '

mutual

/-- Pretty rendering of a value at indentation `ind`, matching
`JSON.stringify(value, null, 2)` character for character. -/
def renderV (ind : Nat) : Value → List Char
  | .vNull => "null".data
  | .vBool true => "true".data
  | .vBool false => "false".data
  | .vNum n => renderNum n
  | .vStr s => quoteStr s
  | .vArr [] => "[]".data
  | .vArr (x :: xs) =>
      '[' :: (nlInd (ind + 2) ++ renderV (ind + 2) x ++ renderArrRest (ind + 2) xs
        ++ nlInd ind ++ [']'])
  | .vObj [] => [lcur, rcur]
  | .vObj (m :: ms) =>
      lcur :: (nlInd (ind + 2) ++ renderMember (ind + 2) m ++ renderObjRest (ind + 2) ms
        ++ nlInd ind ++ [rcur])

/-- The members of an array after the first, each preceded by a comma
and a line break. -/
def renderArrRest (ind : Nat) : List Value → List Char
  | [] => []
  | y :: ys => ',' :: (nlInd ind ++ renderV ind y ++ renderArrRest ind ys)

/-- One `"key": value` member. -/
def renderMember (ind : Nat) : String × Value → List Char
  | (k, v) => quoteStr k ++ ':' :: ' ' :: renderV ind v

/-- The members of an object after the first. -/
def renderObjRest (ind : Nat) : List (String × Value) → List Char
  | [] => []
  | m :: ms => ',' :: (nlInd ind ++ renderMember ind m ++ renderObjRest ind ms)

end

/-- Serialization of the whole document, as `saveData` writes it. -/
def renderDoc (d : Doc) : String := ⟨renderV 0 (.vObj d)⟩

/-! ### Parsing: `JSON.parse`

The store reloads with `JSON.parse`, so the model carries a full
recursive-descent parser for the JSON grammar: the four whitespace
characters, `null`/`true`/`false`, decimal numbers with optional
fraction and exponent, strings with the short escapes and `\uXXXX`, and
arbitrarily nested arrays and objects.  A duplicate key inside an
object is resolved the way `JSON.parse` resolves it — by property
assignment, so the last occurrence wins.  Recursion is on an explicit
fuel counter (structural, hence total); the entry point supplies more
fuel than any input can exhaust. -/

/-- The JSON whitespace characters. -/
def isWsCh (c : Char) : Bool :=
  c == ' ' || c == '\t' || c == '\n' || c == Char.ofNat 13

/-- Drop leading JSON whitespace. -/
def skipWs : List Char → List Char
  | [] => []
  | c :: r => if isWsCh c then skipWs r else c :: r

/-- Decimal digit test. -/
def isDig (c : Char) : Bool := '0' ≤ c && c ≤ '9'

/-- Split off the maximal leading run of digits. -/
def takeDigs : List Char → List Char × List Char
  | [] => ([], [])
  | c :: r =>
      if isDig c then
        let (ds, rest) := takeDigs r
        (c :: ds, rest)
      else ([], c :: r)

/-- The number a digit run denotes, most significant digit first. -/
def digitsVal (ds : List Char) : Nat :=
  ds.foldl (fun acc c => acc * 10 + (c.toNat - 48)) 0

/-- Value of one hexadecimal digit. -/
def hexDigVal (c : Char) : Option Nat :=
  let n := c.toNat
  if 48 ≤ n && n ≤ 57 then some (n - 48)
  else if 97 ≤ n && n ≤ 102 then some (n - 87)
  else if 65 ≤ n && n ≤ 70 then some (n - 55)
  else none

/-- The short escapes and the characters they denote. -/
def escTable : List (Char × Char) :=
  [('"', '"'), ('\\', '\\'), ('/', '/'), ('b', Char.ofNat 8), ('f', Char.ofNat 12),
   ('n', '\n'), ('r', Char.ofNat 13), ('t', '\t')]

/-- The character a short escape denotes. -/
def unescCh (c : Char) : Option Char :=
  (escTable.find? (fun p => p.1 == c)).map Prod.snd

/-- Parse the body of a string literal, the opening quote already
consumed; `acc` holds the characters read so far, reversed. -/
def pStrBody (acc : List Char) : List Char → Option (String × List Char)
  | [] => none
  | '"' :: r => some (⟨acc.reverse⟩, r)
  | '\\' :: 'u' :: a :: b :: c :: d :: r =>
      match hexDigVal a, hexDigVal b, hexDigVal c, hexDigVal d with
      | some va, some vb, some vc, some vd =>
          pStrBody (Char.ofNat (((va * 16 + vb) * 16 + vc) * 16 + vd) :: acc) r
      | _, _, _, _ => none
  | '\\' :: e :: r =>
      match unescCh e with
      | some ch => pStrBody (ch :: acc) r
      | none => none
  | c :: r => pStrBody (c :: acc) r

/-- Parse the optional fraction of a number: a dot followed by at least
one digit, or nothing.  Returns the fraction's digits (possibly none)
and the remainder. -/
def pFrac : List Char → Option (List Char × List Char)
  | '.' :: r =>
      let (fds, cs3) := takeDigs r
      if fds.isEmpty then none else some (fds, cs3)
  | cs => some ([], cs)

/-- Parse the optional exponent of a number: `e`/`E`, an optional sign,
and at least one digit, or nothing. -/
def pExp : List Char → Option (Int × List Char)
  | c :: r =>
      if c == 'e' || c == 'E' then
        let (esgn, r1) : Int × List Char := match r with
          | '+' :: r2 => (1, r2)
          | '-' :: r2 => (-1, r2)
          | _ => (1, r)
        let (eds, r3) := takeDigs r1
        if eds.isEmpty then none else some (esgn * digitsVal eds, r3)
      else some (0, c :: r)
  | [] => some (0, [])

/-- Split off an optional leading minus sign. -/
def pSign : List Char → Bool × List Char
  | '-' :: r => (true, r)
  | cs => (false, cs)

/-- Parse a number.  The grammar's parts are an optional leading minus,
a mandatory integer digit run, an optional fraction and an optional
signed exponent. -/
def pNum (cs : List Char) : Option (ℚ × List Char) :=
  let (neg, cs1) := pSign cs
  let (ids, cs2) := takeDigs cs1
  if ids.isEmpty then none
  else
    match pFrac cs2 with
    | none => none
    | some (fds, cs3) =>
        match pExp cs3 with
        | none => none
        | some (ex, cs4) =>
            let mag : ℚ := (digitsVal ids : ℚ) + (digitsVal fds : ℚ) / 10 ^ fds.length
            some ((if neg then -mag else mag) * 10 ^ ex, cs4)

/-- Object construction from parsed members: `JSON.parse` assigns the
members in order, so a repeated key keeps its original position and the
last value. -/
def buildObj (ms : List (String × Value)) : List (String × Value) :=
  ms.foldl (fun a kv => objSet a kv.1 kv.2) []

mutual

/-- Parse one JSON value (leading whitespace allowed). -/
def pVal : Nat → List Char → Option (Value × List Char)
  | 0, _ => none
  | fuel + 1, cs =>
      match skipWs cs with
      | 'n' :: 'u' :: 'l' :: 'l' :: r => some (.vNull, r)
      | 't' :: 'r' :: 'u' :: 'e' :: r => some (.vBool true, r)
      | 'f' :: 'a' :: 'l' :: 's' :: 'e' :: r => some (.vBool false, r)
      | '"' :: r =>
          match pStrBody [] r with
          | some (s, r1) => some (.vStr s, r1)
          | none => none
      | '[' :: r =>
          (match skipWs r with
           | ']' :: r1 => some (.vArr [], r1)
           | r1 =>
               match pItems fuel r1 with
               | some (vs, r2) => some (.vArr vs, r2)
               | none => none)
      | c :: r =>
          if c == lcur then
            match skipWs r with
            | c1 :: r1 =>
                if c1 == rcur then some (.vObj [], r1)
                else
                  (match pMembers fuel (c1 :: r1) with
                   | some (ms, r2) => some (.vObj (buildObj ms), r2)
                   | none => none)
            | [] => none
          else if c == '-' || isDig c then
            match pNum (c :: r) with
            | some (q, r1) => some (.vNum (.fin q), r1)
            | none => none
          else none
      | [] => none

/-- Parse the elements of a non-empty array, up to and including the
closing bracket. -/
def pItems : Nat → List Char → Option (List Value × List Char)
  | 0, _ => none
  | fuel + 1, cs =>
      match pVal fuel cs with
      | none => none
      | some (v, r) =>
          match skipWs r with
          | ',' :: r1 =>
              (match pItems fuel r1 with
               | some (vs, r2) => some (v :: vs, r2)
               | none => none)
          | ']' :: r1 => some ([v], r1)
          | _ => none

/-- Parse the members of a non-empty object, up to and including the
closing brace. -/
def pMembers : Nat → List Char → Option (List (String × Value) × List Char)
  | 0, _ => none
  | fuel + 1, cs =>
      match skipWs cs with
      | '"' :: r =>
          (match pStrBody [] r with
           | none => none
           | some (k, r1) =>
               match skipWs r1 with
               | ':' :: r2 =>
                   (match pVal fuel r2 with
                    | none => none
                    | some (v, r3) =>
                        match skipWs r3 with
                        | ',' :: r4 =>
                            (match pMembers fuel r4 with
                             | some (ms, r5) => some ((k, v) :: ms, r5)
                             | none => none)
                        | c :: r4 =>
                            if c == rcur then some ([(k, v)], r4) else none
                        | [] => none)
               | _ => none)
      | _ => none

end

/-- The whole of `JSON.parse`: one value and nothing but trailing
whitespace after it. -/
def parseJSON (s : String) : Option Value :=
  match pVal (s.length + 1) s.data with
  | some (v, r) => if (skipWs r).isEmpty then some v else none
  | none => none

/-- A character list consisting of JSON whitespace only. -/
def wsOnly : List Char → Bool
  | [] => true
  | c :: t => isWsCh c && wsOnly t

/-- A remainder that cannot extend a decimal numeral: empty, or headed
by something that is neither a digit nor `.`, `e`, `E`.  Every
character that can follow a number in the pretty-printed output — a
comma, a newline, a closing bracket or brace — qualifies. -/
def numBoundary : List Char → Bool
  | [] => true
  | c :: _ => !(isDig c || c == '.' || c == 'e' || c == 'E')

mutual

/-- Whether a value round-trips through the backing file: it contains
no non-finite number (those serialize as `null`), every finite number
is decimal-representable (every actual JavaScript number is), and every
object has unique keys (every actual JavaScript object does). -/
def jsonSafeV : Value → Bool
  | .vNull => true
  | .vBool _ => true
  | .vNum (.fin q) => (ratScale q).isSome
  | .vNum _ => false
  | .vStr _ => true
  | .vArr l => jsonSafeL l
  | .vObj ms => jsonSafeO ms

/-- Safety of every element of an array. -/
def jsonSafeL : List Value → Bool
  | [] => true
  | x :: xs => jsonSafeV x && jsonSafeL xs

/-- Safety of an object's fields: unique keys and safe values. -/
def jsonSafeO : List (String × Value) → Bool
  | [] => true
  | (k, v) :: ms => (objGet ms k).isNone && jsonSafeV v && jsonSafeO ms

end

/-! ### The store

State and operations of the cached-in-memory class `HelixiaDB`
(src/unnamed/part_003).  A mutating operation takes the store and the
filesystem and returns the operation's result together with the store
and filesystem after it; a thrown `DatabaseError` surfaces as
`Except.error` and, because every check precedes every mutation in the
source, leaves both components exactly as they were.

Objects are modelled as plain records of own data properties;
prototype-chain lookups (such as `'toString' in obj`) and the
`__proto__` assignment quirk are outside the model. -/

/-- The error values of Error.js, plus the two `DatabaseError`s `math`
constructs inline and the I/O error `fs.unlinkSync` raises on a missing
file. -/
inductive DBError where
  | INVALID_JSON
  | INVALID_VALUE
  | KEY_NOT_FOUND
  | OBJECT_NOT_FOUND
  | ARRAY_NOT_FOUND
  | FILE_NOT_FOUND
  | databaseError (msg : String)
  | ioError (msg : String)
deriving DecidableEq, Repr

/-- The store: its backing file path and the in-memory document. -/
structure DB where
  filePath : String
  data : Doc
deriving Repr

/-- Negation of a JavaScript number. -/
def jsNeg : JNum → JNum
  | .fin q => .fin (-q)
  | .posInf => .negInf
  | .negInf => .posInf
  | .nan => .nan

/-- JavaScript `+` on numbers.  Finite addition is exact; opposite
infinities give `NaN`. -/
def jsAdd : JNum → JNum → JNum
  | .nan, _ => .nan
  | _, .nan => .nan
  | .posInf, .negInf => .nan
  | .negInf, .posInf => .nan
  | .posInf, _ => .posInf
  | _, .posInf => .posInf
  | .negInf, _ => .negInf
  | _, .negInf => .negInf
  | .fin a, .fin b => .fin (a + b)

/-- JavaScript `-` on numbers. -/
def jsSub (a b : JNum) : JNum := jsAdd a (jsNeg b)

/-- JavaScript `*` on numbers: an infinity times zero is `NaN`,
otherwise signs multiply. -/
def jsMul : JNum → JNum → JNum
  | .nan, _ => .nan
  | _, .nan => .nan
  | .fin a, .fin b => .fin (a * b)
  | .fin a, .posInf => if a = 0 then .nan else if 0 < a then .posInf else .negInf
  | .fin a, .negInf => if a = 0 then .nan else if 0 < a then .negInf else .posInf
  | .posInf, .fin b => if b = 0 then .nan else if 0 < b then .posInf else .negInf
  | .negInf, .fin b => if b = 0 then .nan else if 0 < b then .negInf else .posInf
  | .posInf, .posInf => .posInf
  | .posInf, .negInf => .negInf
  | .negInf, .posInf => .negInf
  | .negInf, .negInf => .posInf

/-- JavaScript `/` on numbers: division by zero gives a signed infinity
(or `NaN` for `0 / 0`), never an error; a finite value over an infinity
is zero (the model has no `-0`); an infinity over an infinity is
`NaN`. -/
def jsDiv : JNum → JNum → JNum
  | .nan, _ => .nan
  | _, .nan => .nan
  | .fin a, .fin b =>
      if b = 0 then (if a = 0 then .nan else if 0 < a then .posInf else .negInf)
      else .fin (a / b)
  | .fin _, .posInf => .fin 0
  | .fin _, .negInf => .fin 0
  | .posInf, .fin b => if 0 ≤ b then .posInf else .negInf
  | .negInf, .fin b => if 0 ≤ b then .negInf else .posInf
  | .posInf, _ => .nan
  | .negInf, _ => .nan

namespace HelixiaDB

/-- Serialization and synchronous write of the whole document
(`saveData`). -/
def saveData (db : DB) (fs : FS) : FS := fsWrite fs db.filePath (renderDoc db.data)

/-- Constructor-time load (`loadData`): parse the backing file if it
exists, otherwise start empty and persist the empty document at once.
Malformed contents raise `INVALID_JSON`.  A well-formed file whose top
level is not an object is outside the `Doc` model (the store itself
only ever writes objects); the model maps that unreachable-via-the-
store case to `INVALID_JSON` as well. -/
def loadData (path : String) (fs : FS) : Except DBError (DB × FS) :=
  match fsRead fs path with
  | some s =>
      match parseJSON s with
      | some (.vObj ms) => .ok (⟨path, ms⟩, fs)
      | _ => .error .INVALID_JSON
  | none => .ok (⟨path, []⟩, fsWrite fs path (renderDoc []))

/-- The operation `set(key, value)`: reject a null/absent value with
`INVALID_VALUE`, otherwise store under the key and persist. -/
def set (db : DB) (fs : FS) (key : String) (value : Value) :
    Except DBError Unit × DB × FS :=
  if beqV value .vNull then (.error .INVALID_VALUE, db, fs)
  else
    let d := objSet db.data key value
    (.ok (), ⟨db.filePath, d⟩, fsWrite fs db.filePath (renderDoc d))

/-- The operation `get(key)`: `this.data[key] || null`, so an absent
key and a falsy stored value are both reported as `null`. -/
def get (db : DB) (key : String) : Value :=
  match objGet db.data key with
  | some v => if truthy v then v else .vNull
  | none => .vNull

/-- The operation `remove(key)`: unconditional `delete` and persist. -/
def remove (db : DB) (fs : FS) (key : String) : Except DBError Unit × DB × FS :=
  let d := objRemove db.data key
  (.ok (), ⟨db.filePath, d⟩, fsWrite fs db.filePath (renderDoc d))

/-- The operation `delete(key, value)`: require an array at the key
(`ARRAY_NOT_FOUND` otherwise), then drop every element with
`item !== value` false and persist. -/
def delete (db : DB) (fs : FS) (key : String) (value : Value) :
    Except DBError Unit × DB × FS :=
  match objGet db.data key with
  | some (.vArr l) =>
      let d := objSet db.data key (.vArr (l.filter (fun item => !strictEq item value)))
      (.ok (), ⟨db.filePath, d⟩, fsWrite fs db.filePath (renderDoc d))
  | _ => (.error .ARRAY_NOT_FOUND, db, fs)

/-- The canonical array index a string denotes, if any: `"3"` does,
`"03"` and `"x"` do not. -/
def canonIndex (s : String) : Option Nat :=
  match s.toNat? with
  | some n => if toString n = s then some n else none
  | none => none

/-- Property deletion on an array value (`delete arr[subKey]`): a
canonical in-bounds index leaves a hole, every other key is a no-op.
The model has no holes; a hole and `null` serialize identically and
read back identically through `x || null`, so the hole is modelled as
`null`. -/
def arrDeleteProp (l : List Value) (subKey : String) : List Value :=
  match canonIndex subKey with
  | some i => if i < l.length then l.set i .vNull else l
  | none => l

/-- The operation `deleteKey(key, subKey)`.  The shape check is
`typeof this.data[key] !== 'object' || this.data[key] === null`: a
stored array has `typeof` `'object'`, so it passes the check and the
property deletion runs against it; only scalars, `null` and an absent
key raise `OBJECT_NOT_FOUND`. -/
def deleteKey (db : DB) (fs : FS) (key subKey : String) :
    Except DBError Unit × DB × FS :=
  match objGet db.data key with
  | some (.vObj m) =>
      let d := objSet db.data key (.vObj (objRemove m subKey))
      (.ok (), ⟨db.filePath, d⟩, fsWrite fs db.filePath (renderDoc d))
  | some (.vArr l) =>
      let d := objSet db.data key (.vArr (arrDeleteProp l subKey))
      (.ok (), ⟨db.filePath, d⟩, fsWrite fs db.filePath (renderDoc d))
  | _ => (.error .OBJECT_NOT_FOUND, db, fs)

/-- The per-document transformation of `deleteEach(value)`: every
array-valued entry keeps the elements that are not `===` the probe,
every other entry is dropped when its value is `===` the probe.  The
source iterates `Object.keys(this.data)` and mutates entry by entry;
on an object (whose keys are unique) that is this traversal. -/
def docDeleteEach : Doc → Value → Doc
  | [], _ => []
  | (k, w) :: t, value =>
      match w with
      | .vArr l => (k, .vArr (l.filter (fun item => !strictEq item value))) :: docDeleteEach t value
      | w => if strictEq w value then docDeleteEach t value
             else (k, w) :: docDeleteEach t value

/-- The operation `deleteEach(value)`: one pass over all keys, one
persist at the end. -/
def deleteEach (db : DB) (fs : FS) (value : Value) :
    Except DBError Unit × DB × FS :=
  let d := docDeleteEach db.data value
  (.ok (), ⟨db.filePath, d⟩, fsWrite fs db.filePath (renderDoc d))

/-- The own property names of `Object.prototype`, which the prototype
chain of every plain object (such as `this.data`, built by `JSON.parse`
or the literal `\x7b\x7d`) makes visible to the `in` operator. -/
def protoProps : List String :=
  ["constructor", "hasOwnProperty", "isPrototypeOf", "propertyIsEnumerable",
   "toLocaleString", "toString", "valueOf", "__defineGetter__", "__defineSetter__",
   "__lookupGetter__", "__lookupSetter__", "__proto__"]

/-- The operation `has(key)`: `key in this.data`.  The `in` operator
consults the whole prototype chain, so it reports true for an own entry
of the document and also for every property name inherited from
`Object.prototype`, independent of the truthiness of the value. -/
def has (db : DB) (key : String) : Bool :=
  (objGet db.data key).isSome || protoProps.contains key

/-- The operation `fetch(key)`: an alias of `get`. -/
def fetch (db : DB) (key : String) : Value := get db key

/-- The operation `all()`: the whole document. -/
def all (db : DB) : Doc := db.data

/-- The operation `clear()`: replace the document with an empty object
and persist. -/
def clear (db : DB) (fs : FS) : Except DBError Unit × DB × FS :=
  (.ok (), ⟨db.filePath, []⟩, fsWrite fs db.filePath (renderDoc []))

/-- The operation `destroy()`: `fs.unlinkSync(this.filePath)`.  The
in-memory document is untouched; unlinking a missing file raises the
usual `ENOENT`. -/
def destroy (db : DB) (fs : FS) : Except DBError Unit × DB × FS :=
  if fsExists fs db.filePath then (.ok (), db, fsUnlink fs db.filePath)
  else (.error (.ioError "ENOENT"), db, fs)

/-- Property read on an array value (`arr[subKey]` with a string key):
a canonical in-bounds index reads the element, `"length"` reads the
length, anything else is absent. -/
def arrGetProp (l : List Value) (subKey : String) : Option Value :=
  if subKey = "length" then some (.vNum (.fin l.length))
  else
    match canonIndex subKey with
    | some i => l.get? i
    | none => none

/-- The operation `fetchObject(key, subKey)`: the same `typeof` shape
check as `deleteKey` (an array passes it), then
`this.data[key][subKey] || null`. -/
def fetchObject (db : DB) (key subKey : String) : Except DBError Value :=
  match objGet db.data key with
  | some (.vObj m) =>
      .ok (match objGet m subKey with
           | some v => if truthy v then v else .vNull
           | none => .vNull)
  | some (.vArr l) =>
      .ok (match arrGetProp l subKey with
           | some v => if truthy v then v else .vNull
           | none => .vNull)
  | _ => .error .OBJECT_NOT_FOUND

/-- The operation `fetchArray(key, index)`: require an array
(`ARRAY_NOT_FOUND` otherwise), then `this.data[key][index] || null`. -/
def fetchArray (db : DB) (key : String) (index : Nat) : Except DBError Value :=
  match objGet db.data key with
  | some (.vArr l) =>
      .ok (match l.get? index with
           | some v => if truthy v then v else .vNull
           | none => .vNull)
  | _ => .error .ARRAY_NOT_FOUND

/-- The operation `math(key, operator, value)` of the cached variant
(src/unnamed/part_003): require a number at the key, require one of the
four operators, apply the arithmetic, persist and return the new value.
This variant has no division-by-zero check: `"/"` with operand zero
flows into JavaScript division and yields an infinity or `NaN`. -/
def math (db : DB) (fs : FS) (key operator : String) (value : JNum) :
    Except DBError JNum × DB × FS :=
  match objGet db.data key with
  | some (.vNum n) =>
      if !(operator = "+" || operator = "-" || operator = "*" || operator = "/") then
        (.error (.databaseError "Invalid operator."), db, fs)
      else
        let n1 := if operator = "+" then jsAdd n value
          else if operator = "-" then jsSub n value
          else if operator = "*" then jsMul n value
          else jsDiv n value
        let d := objSet db.data key (.vNum n1)
        (.ok n1, ⟨db.filePath, d⟩, fsWrite fs db.filePath (renderDoc d))
  | _ => (.error (.databaseError "The value associated with the key is not a number."), db, fs)

end HelixiaDB

namespace V2

/-- The reload-per-operation loader of src/index.js: parse the file if
it exists (a parse failure is logged and an empty document returned),
otherwise persist and return the empty document. -/
def loadData (path : String) (fs : FS) : Doc × FS :=
  match fsRead fs path with
  | some s =>
      match parseJSON s with
      | some (.vObj ms) => (ms, fs)
      | _ => ([], fs)
  | none => ([], fsWrite fs path (renderDoc []))

/-- The operation `math` of src/index.js.  Unlike the cached variant it
rejects a zero divisor: `case '/'` throws `Division by zero is not
allowed.` when the operand is `=== 0`.  Every throw is caught by the
surrounding try/catch, which logs and returns `null` without saving, so
a failure leaves the file untouched. -/
def math (path : String) (fs : FS) (key operator : String) (value : JNum) :
    Option JNum × FS :=
  let (data, fs1) := loadData path fs
  match objGet data key with
  | some (.vNum n) =>
      if !(operator = "+" || operator = "-" || operator = "*" || operator = "/") then
        (none, fs1)
      else if operator = "/" && value = .fin 0 then (none, fs1)
      else
        let n1 := if operator = "+" then jsAdd n value
          else if operator = "-" then jsSub n value
          else if operator = "*" then jsMul n value
          else jsDiv n value
        (some n1, fsWrite fs1 path (renderDoc (objSet data key (.vNum n1))))
  | _ => (none, fs1)

end V2

mutual

theorem beqV_iff : ∀ a b : Value, beqV a b = true ↔ a = b
  | .vNull, b => by cases b <;> simp [beqV]
  | .vBool x, b => by cases b <;> simp [beqV]
  | .vNum x, b => by cases b <;> simp [beqV]
  | .vStr x, b => by cases b <;> simp [beqV]
  | .vArr xs, b => by
      cases b <;> simp [beqV]
      exact beqVL_iff xs _
  | .vObj xs, b => by
      cases b <;> simp [beqV]
      exact beqVO_iff xs _

theorem beqVL_iff : ∀ a b : List Value, beqVL a b = true ↔ a = b
  | [], b => by cases b <;> simp [beqVL]
  | x :: xs, b => by
      cases b with
      | nil => simp [beqVL]
      | cons y ys => simp [beqVL, beqV_iff x y, beqVL_iff xs ys]

theorem beqVO_iff : ∀ a b : List (String × Value), beqVO a b = true ↔ a = b
  | [], b => by cases b <;> simp [beqVO]
  | (k, x) :: xs, b => by
      cases b with
      | nil => simp [beqVO]
      | cons y ys =>
          obtain ⟨l, v⟩ := y
          simp [beqVO, beqV_iff x v, beqVO_iff xs ys, Prod.ext_iff, and_assoc]

end

instance : DecidableEq Value := fun a b => decidable_of_iff _ (beqV_iff a b)

instance : DecidableEq DB := fun a b =>
  decidable_of_iff (a.filePath = b.filePath ∧ a.data = b.data)
    (by cases a; cases b; simp)

instance {ε α : Type} [DecidableEq ε] [DecidableEq α] : DecidableEq (Except ε α) :=
  fun a b =>
    match a, b with
    | .ok x, .ok y => decidable_of_iff (x = y) (by simp)
    | .error x, .error y => decidable_of_iff (x = y) (by simp)
    | .ok _, .error _ => isFalse (by intro h; cases h)
    | .error _, .ok _ => isFalse (by intro h; cases h)

/-! ### Basic lemmas about the object and filesystem primitives -/

theorem objGet_objSet_self (d : List (String × Value)) (k : String) (v : Value) :
    objGet (objSet d k v) k = some v := by
  induction d with
  | nil => simp [objSet, objGet]
  | cons kv t ih =>
      obtain ⟨k0, w0⟩ := kv
      by_cases h : k0 = k
      · simp [objSet, objGet, h]
      · simp [objSet, objGet, h, ih]

theorem objGet_objSet_ne (d : List (String × Value)) (k k1 : String) (v : Value)
    (h : k1 ≠ k) : objGet (objSet d k v) k1 = objGet d k1 := by
  induction d with
  | nil => simp [objSet, objGet, Ne.symm h]
  | cons kv t ih =>
      obtain ⟨k0, w0⟩ := kv
      by_cases h0 : k0 = k
      · subst h0
        simp [objSet, objGet, Ne.symm h]
      · by_cases h1 : k0 = k1 <;> simp [objSet, objGet, h0, h1, ih, h]

theorem objGet_objRemove_self (d : List (String × Value)) (k : String) :
    objGet (objRemove d k) k = none := by
  induction d with
  | nil => simp [objRemove, objGet]
  | cons kv t ih =>
      obtain ⟨k0, w0⟩ := kv
      by_cases h : k0 = k <;> simp [objRemove, objGet, h, ih]

theorem fsRead_fsUnlink_self (fs : FS) (p : String) :
    fsRead (fsUnlink fs p) p = none := by
  induction fs with
  | nil => simp [fsUnlink, fsRead]
  | cons e t ih =>
      obtain ⟨p0, c0⟩ := e
      by_cases h : p0 = p <;> simp [fsUnlink, fsRead, h, ih]

theorem docDeleteEach_cons_arr (k0 : String) (l : List Value) (t : Doc) (v : Value) :
    HelixiaDB.docDeleteEach ((k0, .vArr l) :: t) v =
      (k0, .vArr (l.filter (fun item => !strictEq item v))) :: HelixiaDB.docDeleteEach t v := rfl

theorem docDeleteEach_cons_drop (k0 : String) (w : Value) (t : Doc) (v : Value)
    (hs : strictEq w v = true) :
    HelixiaDB.docDeleteEach ((k0, w) :: t) v = HelixiaDB.docDeleteEach t v := by
  cases w <;> simp_all [HelixiaDB.docDeleteEach, strictEq]

theorem docDeleteEach_cons_keep (k0 : String) (w : Value) (t : Doc) (v : Value)
    (hs : strictEq w v = false) (hw : ∀ l, w ≠ .vArr l) :
    HelixiaDB.docDeleteEach ((k0, w) :: t) v = (k0, w) :: HelixiaDB.docDeleteEach t v := by
  cases w with
  | vArr l => exact absurd rfl (hw l)
  | _ => simp_all [HelixiaDB.docDeleteEach]

/-- A key absent from a document stays absent through `docDeleteEach`. -/
theorem objGet_docDeleteEach_absent (d : Doc) (v : Value) (k : String)
    (h : objGet d k = none) :
    objGet (HelixiaDB.docDeleteEach d v) k = none := by
  induction d with
  | nil => simp [HelixiaDB.docDeleteEach, objGet]
  | cons kv t ih =>
      obtain ⟨k0, w0⟩ := kv
      by_cases hk : k0 = k
      · simp [objGet, hk] at h
      · simp only [objGet, beq_iff_eq, hk, if_false] at h
        rcases harr : w0 with _ | _ | _ | _ | l | ms
        case neg.vArr => rw [docDeleteEach_cons_arr]; simp [objGet, hk, ih h]
        all_goals
          by_cases hs : strictEq w0 v = true
        all_goals
          subst harr
        all_goals
          first
          | (rw [docDeleteEach_cons_drop _ _ _ _ hs]; exact ih h)
          | (rw [docDeleteEach_cons_keep _ _ _ _ (by simp_all) (by intro l0 e; cases e)]
             simp [objGet, hk, ih h])

/-- The per-key behaviour of `deleteEach`, read off the document: an
array-valued entry keeps exactly the elements that are not `===` the
probe, a non-array entry survives iff it is not `===` the probe, and
an absent key stays absent. -/
theorem objGet_docDeleteEach (d : Doc) (v : Value) (hu : keysUnique d = true)
    (k : String) :
    objGet (HelixiaDB.docDeleteEach d v) k =
      match objGet d k with
      | some (.vArr l) => some (.vArr (l.filter (fun item => !strictEq item v)))
      | some w => if strictEq w v then none else some w
      | none => none := by
  induction d with
  | nil => simp [HelixiaDB.docDeleteEach, objGet]
  | cons kv t ih =>
      obtain ⟨k0, w0⟩ := kv
      simp only [keysUnique, Bool.and_eq_true, Option.isNone_iff_eq_none] at hu
      obtain ⟨h0, ht⟩ := hu
      by_cases hk : k0 = k
      · subst hk
        rcases harr : w0 with _ | _ | _ | _ | l | ms
        case pos.vArr => rw [docDeleteEach_cons_arr]; simp [objGet]
        all_goals
          by_cases hs : strictEq w0 v = true
        all_goals
          subst harr
        all_goals
          first
          | (rw [docDeleteEach_cons_drop _ _ _ _ hs,
               objGet_docDeleteEach_absent t v k0 h0]
             simp [objGet, hs])
          | (rw [docDeleteEach_cons_keep _ _ _ _ (by simp_all) (by intro l0 e; cases e)]
             simp only [Bool.not_eq_true] at hs
             simp [objGet, hs])
      · rcases harr : w0 with _ | _ | _ | _ | l | ms
        case neg.vArr => rw [docDeleteEach_cons_arr]; simp [objGet, hk, ih ht]
        all_goals
          by_cases hs : strictEq w0 v = true
        all_goals
          subst harr
        all_goals
          first
          | (rw [docDeleteEach_cons_drop _ _ _ _ hs]
             simp [objGet, hk, ih ht])
          | (rw [docDeleteEach_cons_keep _ _ _ _ (by simp_all) (by intro l0 e; cases e)]
             simp [objGet, hk, ih ht])

/-- Against a non-primitive probe, `===` is false for every stored
element: a fresh object or array reference equals nothing already in
the store. -/
theorem strictEq_nonprim (item v : Value) (hv : isNonPrim v = true) :
    strictEq item v = false := by
  cases v with
  | vArr l => cases item <;> rfl
  | vObj m => cases item <;> rfl
  | vNull => simp [isNonPrim] at hv
  | vBool b => simp [isNonPrim] at hv
  | vNum n => simp [isNonPrim] at hv
  | vStr s => simp [isNonPrim] at hv

/-- Against a primitive probe other than `NaN`, `===` agrees with deep
equality. -/
theorem strictEq_prim (item p : Value) (hp : isPrimNonNan p = true) :
    strictEq item p = beqV item p := by
  cases p with
  | vNull => cases item <;> rfl
  | vBool b => cases item <;> rfl
  | vStr s => cases item <;> rfl
  | vNum n =>
      cases item with
      | vNum m => cases n <;> cases m <;>
          simp_all [strictEq, beqV, jnumEq, isPrimNonNan]
      | _ => rfl
  | vArr l => simp [isPrimNonNan] at hp
  | vObj m => simp [isPrimNonNan] at hp

/-! ### Round-trip groundwork: digits and numerals -/

theorem digitChar_spec (k : Nat) (h : k < 10) :
    (digitChar k).toNat = 48 + k ∧ isDig (digitChar k) = true := by
  interval_cases k <;> exact ⟨by decide, by decide⟩

theorem ndr_digits (fuel : Nat) : ∀ n, n < fuel →
    ∀ c ∈ natDigitsRevAux fuel n, isDig c = true := by
  induction fuel with
  | zero => omega
  | succ f ih =>
      intro n hn c hc
      simp only [natDigitsRevAux] at hc
      by_cases h10 : n < 10
      · simp [h10] at hc
        subst hc
        exact (digitChar_spec n h10).2
      · simp [h10] at hc
        rcases hc with hc | hc
        · subst hc
          exact (digitChar_spec _ (Nat.mod_lt _ (by omega))).2
        · exact ih (n / 10) (by omega) c hc

theorem ndr_ne_nil (fuel n : Nat) (h : n < fuel) : natDigitsRevAux fuel n ≠ [] := by
  cases fuel with
  | zero => omega
  | succ f =>
      simp only [natDigitsRevAux]
      by_cases h10 : n < 10 <;> simp [h10]

theorem ndr_val (fuel : Nat) : ∀ n, n < fuel →
    digitsVal (natDigitsRevAux fuel n).reverse = n := by
  induction fuel with
  | zero => omega
  | succ f ih =>
      intro n hn
      simp only [natDigitsRevAux]
      by_cases h10 : n < 10
      · simp only [if_pos h10]
        simp [digitsVal, (digitChar_spec n h10).1]
      · simp only [if_neg h10, List.reverse_cons]
        simp only [digitsVal, List.foldl_cons, List.foldl_append, List.foldl_nil]
        have := ih (n / 10) (by omega)
        simp only [digitsVal] at this
        rw [this, (digitChar_spec _ (Nat.mod_lt _ (by omega))).1]
        omega

theorem ndr_len_le (fuel : Nat) : ∀ n e, n < fuel → 1 ≤ e → n < 10 ^ e →
    (natDigitsRevAux fuel n).length ≤ e := by
  induction fuel with
  | zero => omega
  | succ f ih =>
      intro n e hn he hpow
      simp only [natDigitsRevAux]
      by_cases h10 : n < 10
      · simp [h10]; omega
      · simp only [if_neg h10, List.length_cons]
        have he2 : 2 ≤ e := by
          by_contra hlt
          have he1 : e = 1 := by omega
          subst he1
          simp at hpow
          omega
        have hlt : n / 10 < 10 ^ (e - 1) := by
          have h1 : (10 : Nat) ^ e = 10 * 10 ^ (e - 1) := by
            rw [← pow_succ']
            congr 1
            omega
          exact Nat.div_lt_of_lt_mul (by omega)
        have := ih (n / 10) (e - 1) (by omega) (by omega) hlt
        omega

theorem digitsOf_digits (n : Nat) : ∀ c ∈ digitsOf n, isDig c = true := by
  intro c hc
  rw [digitsOf, natDigitsRev, List.mem_reverse] at hc
  exact ndr_digits (n + 1) n (by omega) c hc

theorem digitsOf_ne_nil (n : Nat) : digitsOf n ≠ [] := by
  rw [digitsOf, natDigitsRev]
  simp only [ne_eq, List.reverse_eq_nil_iff]
  exact ndr_ne_nil (n + 1) n (by omega)

theorem digitsVal_digitsOf (n : Nat) : digitsVal (digitsOf n) = n :=
  ndr_val (n + 1) n (by omega)

theorem digitsOf_len_le (n e : Nat) (he : 1 ≤ e) (hn : n < 10 ^ e) :
    (digitsOf n).length ≤ e := by
  rw [digitsOf, natDigitsRev, List.length_reverse]
  exact ndr_len_le (n + 1) n e (by omega) he hn

theorem digitsVal_pad (k : Nat) (ds : List Char) :
    digitsVal (List.replicate k '0' ++ ds) = digitsVal ds := by
  induction k with
  | zero => rfl
  | succ j ih =>
      simp only [List.replicate_succ, List.cons_append, digitsVal, List.foldl_cons]
      have : (0 : Nat) * 10 + ('0'.toNat - 48) = 0 := by decide
      rw [this]
      exact ih

theorem takeDigs_cons_nondigit {c : Char} {t : List Char} (h : isDig c = false) :
    takeDigs (c :: t) = ([], c :: t) := by
  simp [takeDigs, h]

theorem numBoundary_head {c : Char} {t : List Char} (h : numBoundary (c :: t) = true) :
    isDig c = false ∧ c ≠ '.' ∧ c ≠ 'e' ∧ c ≠ 'E' := by
  simp only [numBoundary, Bool.not_eq_eq_eq_not, Bool.not_true, Bool.or_eq_false_iff,
    beq_eq_false_iff_ne, ne_eq] at h
  exact ⟨h.1.1.1, h.1.1.2, h.1.2, h.2⟩

theorem takeDigs_boundary {cs : List Char} (h : numBoundary cs = true) :
    takeDigs cs = ([], cs) := by
  cases cs with
  | nil => rfl
  | cons c t => exact takeDigs_cons_nondigit (numBoundary_head h).1

theorem takeDigs_run :
    ∀ (ds : List Char), (∀ c ∈ ds, isDig c = true) →
      ∀ (rest : List Char), takeDigs rest = ([], rest) →
      takeDigs (ds ++ rest) = (ds, rest)
  | [], _, rest, hrest => by rw [List.nil_append]; exact hrest
  | c :: t, hall, rest, hrest => by
      have hrec := takeDigs_run t (fun x hx => hall x (List.mem_cons_of_mem c hx))
        rest hrest
      simp [takeDigs, hall c (List.mem_cons_self ..), hrec]

/-! ### Round-trip groundwork: whitespace -/

theorem skipWs_cons_not {c : Char} (t : List Char) (h : isWsCh c = false) :
    skipWs (c :: t) = c :: t := by
  simp [skipWs, h]

theorem skipWs_wsOnly (p : List Char) (hp : wsOnly p = true) (x : List Char) :
    skipWs (p ++ x) = skipWs x := by
  induction p with
  | nil => rfl
  | cons c t ih =>
      simp only [wsOnly, Bool.and_eq_true] at hp
      simp [skipWs, hp.1, ih hp.2]

theorem wsOnly_replicate_space (n : Nat) : wsOnly (List.replicate n ' ') = true := by
  induction n with
  | zero => rfl
  | succ j ih => simp [List.replicate_succ, wsOnly, isWsCh, ih]

theorem wsOnly_nlInd (n : Nat) : wsOnly (nlInd n) = true := by
  simp only [nlInd, wsOnly, Bool.and_eq_true]
  exact ⟨by decide, wsOnly_replicate_space n⟩

/-! ### Round-trip groundwork: the scaled decimal -/

theorem scaled_eq (q : ℚ) (E : Nat) (hdvd : (q.den : Int) ∣ 10 ^ E) :
    ((q.num * (10 ^ E / (q.den : Int)) : Int) : ℚ) = q * 10 ^ E := by
  have hmul : (10 ^ E / (q.den : Int)) * (q.den : Int) = 10 ^ E :=
    Int.ediv_mul_cancel hdvd
  have hden : ((q.den : ℚ)) ≠ 0 := Nat.cast_ne_zero.mpr q.den_nz
  have hXd : ((10 ^ E / (q.den : Int) : Int) : ℚ) * (q.den : ℚ) = (10 : ℚ) ^ E := by
    exact_mod_cast congrArg (fun z : Int => (z : ℚ)) hmul
  have hnum : (q.num : ℚ) = q * (q.den : ℚ) := by
    rw [← div_eq_iff hden]
    exact Rat.num_div_den q
  push_cast
  rw [hnum, mul_assoc, mul_comm ((q.den : ℚ)) _, hXd]

theorem ratScale_eq (q : ℚ) (m : Int) (e : Nat) (h : ratScale q = some (m, e)) :
    (m : ℚ) = q * 10 ^ e := by
  simp only [ratScale] at h
  split at h
  case isTrue hdvd =>
      rw [Option.some.injEq, Prod.mk.injEq] at h
      obtain ⟨hm, he⟩ := h
      subst hm
      subst he
      exact scaled_eq q _ hdvd
  case isFalse => cases h

theorem isDig_not_ws {c : Char} (h : isDig c = true) : isWsCh c = false := by
  by_contra hws
  rw [Bool.not_eq_false] at hws
  have hd : ((c = ' ' ∨ c = '\t') ∨ c = '\n') ∨ c = Char.ofNat 13 := by
    simpa [isWsCh, Bool.or_eq_true, beq_iff_eq] using hws
  rcases hd with ((rfl | rfl) | rfl) | rfl <;> exact absurd h (by decide)

theorem isDig_ne {c : Char} (h : isDig c = true) :
    c ≠ '-' ∧ c ≠ 'n' ∧ c ≠ 't' ∧ c ≠ 'f' ∧ c ≠ '"' ∧ c ≠ '[' ∧ c ≠ lcur ∧ c ≠ ']' := by
  refine ⟨?_, ?_, ?_, ?_, ?_, ?_, ?_, ?_⟩ <;> (intro he; subst he; exact absurd h (by decide))

theorem pFrac_boundary {cs : List Char} (h : numBoundary cs = true) :
    pFrac cs = some ([], cs) := by
  cases cs with
  | nil => rfl
  | cons c t =>
      obtain ⟨_, hdot, _, _⟩ := numBoundary_head h
      simp [pFrac, hdot]

theorem pExp_boundary {cs : List Char} (h : numBoundary cs = true) :
    pExp cs = some (0, cs) := by
  cases cs with
  | nil => rfl
  | cons c t =>
      obtain ⟨_, _, he, hE⟩ := numBoundary_head h
      simp [pExp, he, hE]

theorem pFrac_run (fds rest : List Char) (hne : fds ≠ [])
    (hds : ∀ c ∈ fds, isDig c = true) (hrest : takeDigs rest = ([], rest)) :
    pFrac ('.' :: (fds ++ rest)) = some (fds, rest) := by
  simp [pFrac, takeDigs_run fds hds rest hrest, hne]

theorem ratio_split (ip fp a e : Nat) (ha : ip * 10 ^ e + fp = a) :
    (ip : ℚ) + (fp : ℚ) / 10 ^ e = (a : ℚ) / 10 ^ e := by
  have h10 : ((10 : ℚ)) ^ e ≠ 0 := by positivity
  field_simp
  push_cast [← ha]
  ring

theorem natAbs_cast_nonneg (m : Int) (h : ¬ m < 0) : ((m.natAbs : ℚ)) = (m : ℚ) := by
  rw [Int.cast_natAbs, abs_of_nonneg (not_lt.mp h)]

theorem natAbs_cast_neg (m : Int) (h : m < 0) : ((m.natAbs : ℚ)) = -(m : ℚ) := by
  rw [Int.cast_natAbs, abs_of_neg h]
  push_cast
  ring

theorem pSign_minus (r : List Char) : pSign ('-' :: r) = (true, r) := rfl

theorem pSign_other {c : Char} (h : c ≠ '-') (t : List Char) :
    pSign (c :: t) = (false, c :: t) := by
  simp [pSign, h]

/-- The numeral codec: parsing a rendered scaled decimal recovers its
value, whenever the remainder cannot extend the numeral. -/
theorem pNum_renderDec (m : Int) (e : Nat) (rest : List Char)
    (hb : numBoundary rest = true) :
    pNum (renderDec m e ++ rest) = some ((m : ℚ) / 10 ^ e, rest) := by
  have htdrest := takeDigs_boundary hb
  by_cases he : e = 0
  · subst he
    have hip : m.natAbs / 10 ^ 0 = m.natAbs := by simp
    have hdig := digitsOf_digits (m.natAbs)
    obtain ⟨c0, t0, hd0⟩ :
        ∃ c0 t0, digitsOf (m.natAbs) = c0 :: t0 := by
      cases hc : digitsOf (m.natAbs) with
      | nil => exact absurd hc (digitsOf_ne_nil _)
      | cons a b => exact ⟨a, b, rfl⟩
    have hc0 : isDig c0 = true := hdig c0 (hd0 ▸ List.mem_cons_self ..)
    have htd : takeDigs (digitsOf (m.natAbs) ++ rest) = (digitsOf (m.natAbs), rest) :=
      takeDigs_run _ hdig rest htdrest
    have hemp : ¬ ((digitsOf (m.natAbs)).isEmpty = true) := by simp [hd0]
    by_cases hm : m < 0
    · have hshape : renderDec m 0 ++ rest = '-' :: (digitsOf (m.natAbs) ++ rest) := by
        simp [renderDec, hm, hip]
      rw [hshape]
      simp only [pNum, pSign_minus, htd, if_neg hemp, pFrac_boundary hb,
        pExp_boundary hb]
      rw [digitsVal_digitsOf]
      simp only [Option.some.injEq, Prod.mk.injEq]
      refine ⟨?_, by trivial⟩
      rw [natAbs_cast_neg m hm]
      simp [digitsVal]
    · have hshape : renderDec m 0 ++ rest = digitsOf (m.natAbs) ++ rest := by
        simp [renderDec, hm, hip]
      obtain ⟨hminus, _⟩ := isDig_ne hc0
      have hsign : pSign (digitsOf (m.natAbs) ++ rest)
          = (false, digitsOf (m.natAbs) ++ rest) := by
        rw [hd0, List.cons_append, pSign_other hminus, ← List.cons_append]
      rw [hshape]
      simp only [pNum, hsign, htd, if_neg hemp, pFrac_boundary hb, pExp_boundary hb]
      rw [digitsVal_digitsOf]
      simp only [Option.some.injEq, Prod.mk.injEq]
      refine ⟨?_, by trivial⟩
      rw [natAbs_cast_nonneg m hm]
      simp [digitsVal]
  · have hone : 1 ≤ e := by omega
    have hpow : (0 : Nat) < 10 ^ e := by positivity
    have hfp : m.natAbs % 10 ^ e < 10 ^ e := Nat.mod_lt _ hpow
    have hlen : (digitsOf (m.natAbs % 10 ^ e)).length ≤ e :=
      digitsOf_len_le _ e hone hfp
    set ip := m.natAbs / 10 ^ e with hipdef
    set fp := m.natAbs % 10 ^ e with hfpdef
    set pad := List.replicate (e - (digitsOf fp).length) '0' ++ digitsOf fp with hpaddef
    have hpad_digits : ∀ c ∈ pad, isDig c = true := by
      intro c hc
      rw [hpaddef, List.mem_append] at hc
      rcases hc with hc | hc
      · rw [List.eq_of_mem_replicate hc]; decide
      · exact digitsOf_digits fp c hc
    have hpad_ne : pad ≠ [] := by
      rw [hpaddef]
      intro hcontra
      rcases List.append_eq_nil.mp hcontra with ⟨_, h2⟩
      exact digitsOf_ne_nil fp h2
    have hpad_len : pad.length = e := by
      rw [hpaddef]
      simp only [List.length_append, List.length_replicate]
      omega
    have hpad_val : digitsVal pad = fp := by
      rw [hpaddef, digitsVal_pad, digitsVal_digitsOf]
    have hdig := digitsOf_digits ip
    obtain ⟨c0, t0, hd0⟩ : ∃ c0 t0, digitsOf ip = c0 :: t0 := by
      cases hc : digitsOf ip with
      | nil => exact absurd hc (digitsOf_ne_nil _)
      | cons a b => exact ⟨a, b, rfl⟩
    have hc0 : isDig c0 = true := hdig c0 (hd0 ▸ List.mem_cons_self ..)
    have htd : takeDigs (digitsOf ip ++ ('.' :: (pad ++ rest)))
        = (digitsOf ip, '.' :: (pad ++ rest)) :=
      takeDigs_run _ hdig _ (takeDigs_cons_nondigit (by decide))
    have hemp : ¬ ((digitsOf ip).isEmpty = true) := by simp [hd0]
    have hfrac : pFrac ('.' :: (pad ++ rest)) = some (pad, rest) :=
      pFrac_run pad rest hpad_ne hpad_digits htdrest
    have hval : (ip : ℚ) + (digitsVal pad : ℚ) / 10 ^ pad.length
        = (m.natAbs : ℚ) / 10 ^ e := by
      rw [hpad_val, hpad_len]
      exact ratio_split ip fp m.natAbs e
        (by rw [hipdef, hfpdef, Nat.mul_comm]; exact Nat.div_add_mod _ _)
    by_cases hm : m < 0
    · have hshape : renderDec m e ++ rest
          = '-' :: (digitsOf ip ++ ('.' :: (pad ++ rest))) := by
        simp [renderDec, hm, he, ← hipdef, ← hfpdef, ← hpaddef]
      rw [hshape]
      simp only [pNum, pSign_minus, htd, if_neg hemp, hfrac, pExp_boundary hb]
      rw [digitsVal_digitsOf]
      simp only [Option.some.injEq, Prod.mk.injEq]
      refine ⟨?_, by trivial⟩
      rw [zpow_zero, mul_one, hval, natAbs_cast_neg m hm]
      simp [neg_div]
    · have hshape : renderDec m e ++ rest
          = digitsOf ip ++ ('.' :: (pad ++ rest)) := by
        simp [renderDec, hm, he, ← hipdef, ← hfpdef, ← hpaddef]
      obtain ⟨hminus, _⟩ := isDig_ne hc0
      have hsign : pSign (digitsOf ip ++ ('.' :: (pad ++ rest)))
          = (false, digitsOf ip ++ ('.' :: (pad ++ rest))) := by
        rw [hd0, List.cons_append, pSign_other hminus, ← List.cons_append]
      rw [hshape]
      simp only [pNum, hsign, htd, if_neg hemp, hfrac, pExp_boundary hb]
      rw [digitsVal_digitsOf]
      simp only [Option.some.injEq, Prod.mk.injEq]
      refine ⟨?_, by trivial⟩
      rw [zpow_zero, mul_one, hval, natAbs_cast_nonneg m hm]
      simp

/-! ### Round-trip groundwork: the string codec -/

theorem hexDigVal_digitChar16 (k : Nat) (h : k < 16) :
    hexDigVal (escChar.digitChar16 k) = some k := by
  interval_cases k <;> decide

theorem pStrBody_escape (c : Char) (acc rest : List Char) :
    pStrBody acc (escChar c ++ rest) = pStrBody (c :: acc) rest := by
  by_cases h1 : c = '"'
  · subst h1; rfl
  by_cases h2 : c = '\\'
  · subst h2; rfl
  by_cases h3 : c = Char.ofNat 8
  · subst h3; rfl
  by_cases h4 : c = '\t'
  · subst h4; rfl
  by_cases h5 : c = '\n'
  · subst h5; rfl
  by_cases h6 : c = Char.ofNat 12
  · subst h6; rfl
  by_cases h7 : c = Char.ofNat 13
  · subst h7; rfl
  by_cases h8 : c.toNat < 32
  · have hesc : escChar c
        = ['\\', 'u', '0', '0', escChar.digitChar16 (c.toNat / 16),
           escChar.digitChar16 (c.toNat % 16)] := by
      simp [escChar, h1, h2, h3, h4, h5, h6, h7, h8]
    rw [hesc]
    simp only [List.cons_append, List.nil_append, pStrBody]
    rw [show hexDigVal '0' = some 0 from by decide,
      hexDigVal_digitChar16 (c.toNat / 16) (by omega),
      hexDigVal_digitChar16 (c.toNat % 16) (by omega)]
    have harith : ((0 * 16 + 0) * 16 + c.toNat / 16) * 16 + c.toNat % 16 = c.toNat := by
      omega
    have h16 : c.toNat / 16 * 16 + c.toNat % 16 = c.toNat := by omega
    simp [harith, h16, Char.ofNat_toNat]
  · have hesc : escChar c = [c] := by
      simp [escChar, h1, h2, h3, h4, h5, h6, h7, h8]
    rw [hesc]
    simp only [List.cons_append, List.nil_append]
    rw [pStrBody.eq_def]
    simp [h1, h2]

theorem pStrBody_flatMap : ∀ (cs acc rest : List Char),
    pStrBody acc (cs.flatMap escChar ++ '"' :: rest)
      = some (⟨acc.reverse ++ cs⟩, rest)
  | [], acc, rest => by simp [pStrBody]
  | c :: cs, acc, rest => by
      rw [List.flatMap_cons, List.append_assoc, pStrBody_escape,
        pStrBody_flatMap cs (c :: acc) rest]
      simp

theorem pStr_quote (s : String) (rest : List Char) :
    pStrBody [] (s.data.flatMap escChar ++ '"' :: rest) = some (s, rest) := by
  rw [pStrBody_flatMap]
  cases s
  rfl

/-! ### Round-trip groundwork: heads of rendered output -/

theorem renderV_head (ind : Nat) (v : Value) :
    ∃ c t, renderV ind v = c :: t ∧ isWsCh c = false ∧ c ≠ ']' := by
  cases v with
  | vNull => exact ⟨'n', _, rfl, by decide, by decide⟩
  | vBool b => cases b <;> exact ⟨_, _, rfl, by decide, by decide⟩
  | vStr s => exact ⟨'"', _, rfl, by decide, by decide⟩
  | vArr l => cases l with
      | nil => exact ⟨'[', _, rfl, by decide, by decide⟩
      | cons x xs => exact ⟨'[', _, rfl, by decide, by decide⟩
  | vObj ms => cases ms with
      | nil => exact ⟨lcur, _, rfl, by decide, by decide⟩
      | cons m ms => exact ⟨lcur, _, rfl, by decide, by decide⟩
  | vNum n =>
      cases n with
      | fin q =>
          cases hrq : ratScale q with
          | none =>
              exact ⟨'n', ['u', 'l', 'l'], by simp [renderV, renderNum, hrq], by decide,
                by decide⟩
          | some me =>
              obtain ⟨m, e⟩ := me
              by_cases hm : m < 0
              · refine ⟨'-', digitsOf (m.natAbs / 10 ^ e) ++
                  (if e = 0 then []
                   else '.' :: (List.replicate (e - (digitsOf (m.natAbs % 10 ^ e)).length) '0'
                     ++ digitsOf (m.natAbs % 10 ^ e))), ?_, by decide, by decide⟩
                simp [renderV, renderNum, hrq, renderDec, hm]
              · obtain ⟨c0, t0, hd0⟩ : ∃ c0 t0, digitsOf (m.natAbs / 10 ^ e) = c0 :: t0 := by
                  cases hc : digitsOf (m.natAbs / 10 ^ e) with
                  | nil => exact absurd hc (digitsOf_ne_nil _)
                  | cons a b => exact ⟨a, b, rfl⟩
                have hc0 : isDig c0 = true :=
                  digitsOf_digits _ c0 (hd0 ▸ List.mem_cons_self ..)
                refine ⟨c0, t0 ++
                  (if e = 0 then []
                   else '.' :: (List.replicate (e - (digitsOf (m.natAbs % 10 ^ e)).length) '0'
                     ++ digitsOf (m.natAbs % 10 ^ e))),
                  ?_, isDig_not_ws hc0, (isDig_ne hc0).2.2.2.2.2.2.2⟩
                simp [renderV, renderNum, hrq, renderDec, hm, hd0]
      | posInf => exact ⟨'n', _, rfl, by decide, by decide⟩
      | negInf => exact ⟨'n', _, rfl, by decide, by decide⟩
      | nan => exact ⟨'n', _, rfl, by decide, by decide⟩

theorem skipWs_renderV (ind : Nat) (v : Value) (x : List Char) :
    skipWs (renderV ind v ++ x) = renderV ind v ++ x := by
  obtain ⟨c, t, hct, hws, _⟩ := renderV_head ind v
  rw [hct, List.cons_append, skipWs_cons_not _ hws]

/-! ### Round-trip groundwork: object reconstruction -/

theorem objGet_append_left_none (a b : List (String × Value)) (k : String)
    (h : objGet a k = none) : objGet (a ++ b) k = objGet b k := by
  induction a with
  | nil => rfl
  | cons kv t ih =>
      obtain ⟨k0, v0⟩ := kv
      by_cases hk : k0 = k
      · simp [objGet, hk] at h
      · simp only [objGet, beq_iff_eq, hk, if_false] at h
        simp [objGet, hk, ih h]

theorem objSet_absent (a : List (String × Value)) (k : String) (v : Value)
    (h : objGet a k = none) : objSet a k v = a ++ [(k, v)] := by
  induction a with
  | nil => rfl
  | cons kv t ih =>
      obtain ⟨k0, v0⟩ := kv
      by_cases hk : k0 = k
      · simp [objGet, hk] at h
      · simp only [objGet, beq_iff_eq, hk, if_false] at h
        simp [objSet, hk, ih h]

theorem mem_keys_isSome (d : List (String × Value)) (kv : String × Value)
    (h : kv ∈ d) : (objGet d kv.1).isSome = true := by
  induction d with
  | nil => cases h
  | cons e t ih =>
      obtain ⟨k0, v0⟩ := e
      rcases List.mem_cons.mp h with rfl | h2
      · simp [objGet]
      · by_cases hk : k0 = kv.1
        · simp [objGet, hk]
        · simp [objGet, hk, ih h2]

theorem foldl_objSet_disjoint :
    ∀ (ms : List (String × Value)) (acc : List (String × Value)),
      keysUnique ms = true → (∀ kv ∈ ms, objGet acc kv.1 = none) →
      ms.foldl (fun a kv => objSet a kv.1 kv.2) acc = acc ++ ms
  | [], acc, _, _ => by simp
  | (k, v) :: t, acc, hu, hd => by
      simp only [keysUnique, Bool.and_eq_true, Option.isNone_iff_eq_none] at hu
      obtain ⟨hk_t, hu_t⟩ := hu
      have hacc : objGet acc k = none := hd (k, v) (by simp)
      have hstep : objSet acc k v = acc ++ [(k, v)] := objSet_absent acc k v hacc
      have hd2 : ∀ kv ∈ t, objGet (acc ++ [(k, v)]) kv.1 = none := by
        intro kv hkv
        have hne : kv.1 ≠ k := by
          intro he
          have := mem_keys_isSome t kv hkv
          rw [he, hk_t] at this
          cases this
        rw [objGet_append_left_none _ _ _ (hd kv (by simp [hkv]))]
        simp [objGet, hne, Ne.symm hne]
      have := foldl_objSet_disjoint t (acc ++ [(k, v)]) hu_t hd2
      simp only [List.foldl_cons, hstep, this, List.append_assoc, List.cons_append,
        List.nil_append]

theorem buildObj_unique (ms : List (String × Value)) (hu : keysUnique ms = true) :
    buildObj ms = ms := by
  have := foldl_objSet_disjoint ms [] hu (by intro kv _; rfl)
  simpa [buildObj] using this

theorem jsonSafeO_keysUnique :
    ∀ ms : List (String × Value), jsonSafeO ms = true → keysUnique ms = true
  | [], _ => rfl
  | (k, v) :: t, h => by
      simp only [jsonSafeO, Bool.and_eq_true] at h
      simp only [keysUnique, Bool.and_eq_true]
      exact ⟨h.1.1, jsonSafeO_keysUnique t h.2⟩

/-! ### Round-trip groundwork: parser dispatch -/

theorem skipWs_idem (cs : List Char) : skipWs (skipWs cs) = skipWs cs := by
  induction cs with
  | nil => rfl
  | cons c t ih =>
      by_cases h : isWsCh c = true
      · simp [skipWs, h, ih]
      · rw [Bool.not_eq_true] at h
        simp [skipWs, h]

/-- The parser looks at its input only through `skipWs`. -/
theorem pVal_skipWs (fuel : Nat) (cs : List Char) :
    pVal (fuel + 1) cs = pVal (fuel + 1) (skipWs cs) := by
  simp only [pVal, skipWs_idem]

theorem numBoundary_cons_of {c : Char} (t : List Char)
    (h : (isDig c || c == '.' || c == 'e' || c == 'E') = false) :
    numBoundary (c :: t) = true := by
  simp [numBoundary, h]

theorem numBoundary_arrTail (ind2 ind : Nat) (xs : List Value) (rest : List Char) :
    numBoundary (renderArrRest ind2 xs ++ (nlInd ind ++ (']' :: rest))) = true := by
  cases xs with
  | nil =>
      simp only [renderArrRest, List.nil_append, nlInd, List.cons_append]
      exact numBoundary_cons_of _ (by decide)
  | cons y ys =>
      simp only [renderArrRest, List.cons_append]
      exact numBoundary_cons_of _ (by decide)

theorem numBoundary_objTail (ind2 ind : Nat) (ms : List (String × Value))
    (rest : List Char) :
    numBoundary (renderObjRest ind2 ms ++ (nlInd ind ++ (rcur :: rest))) = true := by
  cases ms with
  | nil =>
      simp only [renderObjRest, List.nil_append, nlInd, List.cons_append]
      exact numBoundary_cons_of _ (by decide)
  | cons m ms2 =>
      simp only [renderObjRest, List.cons_append]
      exact numBoundary_cons_of _ (by decide)

theorem numStart_props {c : Char} (h : (c == '-' || isDig c) = true) :
    isWsCh c = false ∧ c ≠ 'n' ∧ c ≠ 't' ∧ c ≠ 'f' ∧ c ≠ '"' ∧ c ≠ '[' ∧ c ≠ lcur := by
  rcases (Bool.or_eq_true _ _).mp h with hminus | hdig
  · have : c = '-' := beq_iff_eq.mp hminus
    subst this
    exact ⟨by decide, by decide, by decide, by decide, by decide, by decide, by decide⟩
  · obtain ⟨_, hn, ht, hf, hq, hbk, hlc, _⟩ := isDig_ne hdig
    exact ⟨isDig_not_ws hdig, hn, ht, hf, hq, hbk, hlc⟩

theorem renderDec_head (m : Int) (e : Nat) :
    ∃ c t, renderDec m e = c :: t ∧ (c == '-' || isDig c) = true := by
  by_cases hm : m < 0
  · refine ⟨'-', digitsOf (m.natAbs / 10 ^ e) ++
      (if e = 0 then []
       else '.' :: (List.replicate (e - (digitsOf (m.natAbs % 10 ^ e)).length) '0'
         ++ digitsOf (m.natAbs % 10 ^ e))), ?_, by decide⟩
    simp [renderDec, hm]
  · obtain ⟨c0, t0, hd0⟩ : ∃ c0 t0, digitsOf (m.natAbs / 10 ^ e) = c0 :: t0 := by
      cases hc : digitsOf (m.natAbs / 10 ^ e) with
      | nil => exact absurd hc (digitsOf_ne_nil _)
      | cons a b => exact ⟨a, b, rfl⟩
    have hc0 : isDig c0 = true := digitsOf_digits _ c0 (hd0 ▸ List.mem_cons_self ..)
    refine ⟨c0, t0 ++
      (if e = 0 then []
       else '.' :: (List.replicate (e - (digitsOf (m.natAbs % 10 ^ e)).length) '0'
         ++ digitsOf (m.natAbs % 10 ^ e))), ?_, by simp [hc0]⟩
    simp [renderDec, hm, hd0]

/-- The number branch of the parser: a head that starts a numeral
dispatches to `pNum`. -/
theorem pVal_num (fuel : Nat) (c0 : Char) (t : List Char) (qv : ℚ) (r1 : List Char)
    (hstart : (c0 == '-' || isDig c0) = true)
    (hpn : pNum (c0 :: t) = some (qv, r1)) :
    pVal (fuel + 1) (c0 :: t) = some (.vNum (.fin qv), r1) := by
  obtain ⟨hws, hn, ht, hf, hq, hbk, hlc⟩ := numStart_props hstart
  simp only [pVal]
  rw [skipWs_cons_not t hws]
  simp [hn, ht, hf, hq, hbk, hlc, hstart, hpn]

/-! ### The round trip -/

mutual

/-- Parsing a rendered value (after any leading whitespace) recovers
it, for every JSON-safe value, with fuel beyond the rendered length. -/
theorem rtVal : ∀ (fuel : Nat) (v : Value) (ind : Nat) (pre rest : List Char),
    jsonSafeV v = true → wsOnly pre = true → numBoundary rest = true →
    (renderV ind v).length < fuel →
    pVal fuel (pre ++ (renderV ind v ++ rest)) = some (v, rest)
  | 0, v, ind, pre, rest, _, _, _, hf => absurd hf (Nat.not_lt_zero _)
  | fuel + 1, v, ind, pre, rest, hs, hp, hb, hf => by
      have hskip : skipWs (pre ++ (renderV ind v ++ rest)) = renderV ind v ++ rest :=
        (skipWs_wsOnly pre hp _).trans (skipWs_renderV ind v rest)
      rw [pVal_skipWs, hskip]
      cases v with
      | vNull =>
          rw [show renderV ind Value.vNull ++ rest = 'n' :: 'u' :: 'l' :: 'l' :: rest
            from rfl]
          simp only [pVal]
          rw [skipWs_cons_not _ (by decide)]
          rfl
      | vBool b =>
          cases b with
          | true =>
              rw [show renderV ind (Value.vBool true) ++ rest
                  = 't' :: 'r' :: 'u' :: 'e' :: rest from rfl]
              simp only [pVal]
              rw [skipWs_cons_not _ (by decide)]
              rfl
          | false =>
              rw [show renderV ind (Value.vBool false) ++ rest
                  = 'f' :: 'a' :: 'l' :: 's' :: 'e' :: rest from rfl]
              simp only [pVal]
              rw [skipWs_cons_not _ (by decide)]
              rfl
      | vNum n =>
          cases n with
          | posInf => simp [jsonSafeV] at hs
          | negInf => simp [jsonSafeV] at hs
          | nan => simp [jsonSafeV] at hs
          | fin q =>
              cases hrq : ratScale q with
              | none => simp [jsonSafeV, hrq] at hs
              | some me =>
                  obtain ⟨m, e⟩ := me
                  have hrender : renderV ind (.vNum (.fin q)) = renderDec m e := by
                    simp [renderV, renderNum, hrq]
                  have hq : ((m : ℚ)) / 10 ^ e = q := by
                    rw [ratScale_eq q m e hrq]
                    have h10 : ((10 : ℚ)) ^ e ≠ 0 := by positivity
                    field_simp
                  have hpn : pNum (renderDec m e ++ rest) = some (q, rest) := by
                    rw [pNum_renderDec m e rest hb, hq]
                  obtain ⟨c0, t0, hdd, hstart⟩ := renderDec_head m e
                  rw [hrender, hdd, List.cons_append]
                  rw [hdd, List.cons_append] at hpn
                  exact pVal_num fuel c0 (t0 ++ rest) q rest hstart hpn
      | vStr s =>
          rw [show renderV ind (Value.vStr s) ++ rest
              = '"' :: (s.data.flatMap escChar ++ ('"' :: rest)) from by
            simp [renderV, quoteStr]]
          simp only [pVal]
          rw [skipWs_cons_not _ (by decide)]
          simp [pStr_quote]
      | vArr l =>
          cases l with
          | nil =>
              rw [show renderV ind (Value.vArr []) ++ rest = '[' :: (']' :: rest)
                from rfl]
              simp only [pVal]
              rw [skipWs_cons_not _ (by decide)]
              simp [skipWs, isWsCh]
          | cons x xs =>
              have hsafe : jsonSafeV x = true ∧ jsonSafeL xs = true := by
                simpa [jsonSafeV, jsonSafeL] using hs
              have hflen := hf
              simp only [renderV, List.length_cons, List.length_append, nlInd,
                List.length_replicate] at hflen
              rw [show renderV ind (Value.vArr (x :: xs)) ++ rest
                  = '[' :: (nlInd (ind + 2) ++ (renderV (ind + 2) x
                    ++ (renderArrRest (ind + 2) xs ++ (nlInd ind ++ (']' :: rest)))))
                from by simp [renderV, List.append_assoc]]
              simp only [pVal]
              rw [skipWs_cons_not _ (by decide)]
              obtain ⟨c0, t0, hhead, hcws, hcne⟩ := renderV_head (ind + 2) x
              have hsk2 : skipWs (nlInd (ind + 2) ++ (renderV (ind + 2) x
                    ++ (renderArrRest (ind + 2) xs ++ (nlInd ind ++ (']' :: rest)))))
                  = c0 :: (t0 ++ (renderArrRest (ind + 2) xs
                    ++ (nlInd ind ++ (']' :: rest)))) := by
                rw [skipWs_wsOnly _ (wsOnly_nlInd _), skipWs_renderV, hhead,
                  List.cons_append]
              have hitems := rtItems fuel x xs (ind + 2) ind [] rest hsafe.1 hsafe.2
                rfl (by omega)
              rw [List.nil_append, hhead, List.cons_append] at hitems
              simp [hsk2, hcne, hitems]
      | vObj ms =>
          cases ms with
          | nil =>
              rw [show renderV ind (Value.vObj []) ++ rest = lcur :: (rcur :: rest)
                from rfl]
              simp only [pVal]
              rw [skipWs_cons_not _ (by decide)]
              simp [skipWs, isWsCh, lcur, rcur]
          | cons kv ms =>
              obtain ⟨k, v0⟩ := kv
              have hsO : jsonSafeO ((k, v0) :: ms) = true := hs
              have hsafe : jsonSafeV v0 = true ∧ jsonSafeO ms = true := by
                simp only [jsonSafeO, Bool.and_eq_true] at hsO
                exact ⟨hsO.1.2, hsO.2⟩
              have hflen := hf
              simp only [renderV, renderMember, quoteStr, List.length_cons,
                List.length_append, nlInd, List.length_replicate] at hflen
              rw [show renderV ind (Value.vObj ((k, v0) :: ms)) ++ rest
                  = lcur :: (nlInd (ind + 2) ++ (renderMember (ind + 2) (k, v0)
                    ++ (renderObjRest (ind + 2) ms ++ (nlInd ind ++ (rcur :: rest)))))
                from by simp [renderV, List.append_assoc]]
              simp only [pVal]
              rw [skipWs_cons_not _ (by decide)]
              have hmem : renderMember (ind + 2) (k, v0)
                    ++ (renderObjRest (ind + 2) ms ++ (nlInd ind ++ (rcur :: rest)))
                  = '"' :: (k.data.flatMap escChar
                    ++ ('"' :: (':' :: (' ' :: (renderV (ind + 2) v0
                      ++ (renderObjRest (ind + 2) ms
                        ++ (nlInd ind ++ (rcur :: rest)))))))) := by
                simp [renderMember, quoteStr, List.append_assoc]
              have hsk2 : skipWs (nlInd (ind + 2) ++ (renderMember (ind + 2) (k, v0)
                    ++ (renderObjRest (ind + 2) ms ++ (nlInd ind ++ (rcur :: rest)))))
                  = '"' :: (k.data.flatMap escChar
                    ++ ('"' :: (':' :: (' ' :: (renderV (ind + 2) v0
                      ++ (renderObjRest (ind + 2) ms
                        ++ (nlInd ind ++ (rcur :: rest)))))))) := by
                rw [skipWs_wsOnly _ (wsOnly_nlInd _), hmem,
                  skipWs_cons_not _ (by decide)]
              have hmlen : (renderMember (ind + 2) (k, v0)).length
                  = (k.data.flatMap escChar).length + (renderV (ind + 2) v0).length + 4 := by
                simp [renderMember, quoteStr, List.length_append, List.length_cons]
                omega
              have hmembers := rtMembers fuel k v0 ms (ind + 2) ind [] rest hsafe.1
                hsafe.2 rfl (by rw [hmlen]; omega)
              rw [List.nil_append, hmem] at hmembers
              have hku : keysUnique ((k, v0) :: ms) = true :=
                jsonSafeO_keysUnique _ hsO
              simp only [lcur, rcur] at hsk2 hmembers ⊢
              simp [hsk2, hmembers, buildObj_unique _ hku]

/-- Parsing the rendered elements of a non-empty array, closing bracket
included, recovers them. -/
theorem rtItems : ∀ (fuel : Nat) (x : Value) (xs : List Value) (ind2 ind : Nat)
    (pre rest : List Char),
    jsonSafeV x = true → jsonSafeL xs = true → wsOnly pre = true →
    (renderV ind2 x).length + (renderArrRest ind2 xs).length + 1 < fuel →
    pItems fuel (pre ++ (renderV ind2 x
        ++ (renderArrRest ind2 xs ++ (nlInd ind ++ (']' :: rest)))))
      = some (x :: xs, rest)
  | 0, x, xs, ind2, ind, pre, rest, _, _, _, hf => absurd hf (Nat.not_lt_zero _)
  | fuel + 1, x, xs, ind2, ind, pre, rest, hsx, hsxs, hp, hf => by
      have hpv : pVal fuel (pre ++ (renderV ind2 x
            ++ (renderArrRest ind2 xs ++ (nlInd ind ++ (']' :: rest)))))
          = some (x, renderArrRest ind2 xs ++ (nlInd ind ++ (']' :: rest))) :=
        rtVal fuel x ind2 pre _ hsx hp (numBoundary_arrTail ind2 ind xs rest)
          (by omega)
      simp only [pItems, hpv]
      cases xs with
      | nil =>
          rw [show renderArrRest ind2 ([] : List Value) ++ (nlInd ind ++ (']' :: rest))
              = nlInd ind ++ (']' :: rest) from rfl]
          rw [skipWs_wsOnly _ (wsOnly_nlInd ind), skipWs_cons_not _ (by decide)]
          rfl
      | cons y ys =>
          have hsafe : jsonSafeV y = true ∧ jsonSafeL ys = true := by
            simpa [jsonSafeL] using hsxs
          have hflen := hf
          simp only [renderArrRest, List.length_cons, List.length_append, nlInd,
            List.length_replicate] at hflen
          rw [show renderArrRest ind2 (y :: ys) ++ (nlInd ind ++ (']' :: rest))
              = ',' :: (nlInd ind2 ++ (renderV ind2 y
                ++ (renderArrRest ind2 ys ++ (nlInd ind ++ (']' :: rest)))))
            from by simp [renderArrRest, List.append_assoc]]
          rw [skipWs_cons_not _ (by decide)]
          have hrec := rtItems fuel y ys ind2 ind (nlInd ind2) rest hsafe.1 hsafe.2
            (wsOnly_nlInd ind2) (by omega)
          simp [hrec]

/-- Parsing the rendered members of a non-empty object, closing brace
included, recovers them. -/
theorem rtMembers : ∀ (fuel : Nat) (k : String) (v : Value)
    (ms : List (String × Value)) (ind2 ind : Nat) (pre rest : List Char),
    jsonSafeV v = true → jsonSafeO ms = true → wsOnly pre = true →
    (renderMember ind2 (k, v)).length + (renderObjRest ind2 ms).length + 1 < fuel →
    pMembers fuel (pre ++ (renderMember ind2 (k, v)
        ++ (renderObjRest ind2 ms ++ (nlInd ind ++ (rcur :: rest)))))
      = some ((k, v) :: ms, rest)
  | 0, k, v, ms, ind2, ind, pre, rest, _, _, _, hf => absurd hf (Nat.not_lt_zero _)
  | fuel + 1, k, v, ms, ind2, ind, pre, rest, hsv, hsms, hp, hf => by
      have hmem : renderMember ind2 (k, v)
            ++ (renderObjRest ind2 ms ++ (nlInd ind ++ (rcur :: rest)))
          = '"' :: (k.data.flatMap escChar
            ++ ('"' :: (':' :: (' ' :: (renderV ind2 v
              ++ (renderObjRest ind2 ms ++ (nlInd ind ++ (rcur :: rest)))))))) := by
        simp [renderMember, quoteStr, List.append_assoc]
      have hskip2 : skipWs (pre ++ ('"' :: (k.data.flatMap escChar
            ++ ('"' :: (':' :: (' ' :: (renderV ind2 v
              ++ (renderObjRest ind2 ms ++ (nlInd ind ++ (rcur :: rest))))))))))
          = '"' :: (k.data.flatMap escChar
            ++ ('"' :: (':' :: (' ' :: (renderV ind2 v
              ++ (renderObjRest ind2 ms ++ (nlInd ind ++ (rcur :: rest)))))))) := by
        rw [skipWs_wsOnly pre hp]
        exact skipWs_cons_not _ (by decide)
      have hflen := hf
      simp only [renderMember, quoteStr, List.length_cons, List.length_append] at hflen
      have hpv : pVal fuel (' ' :: (renderV ind2 v
            ++ (renderObjRest ind2 ms ++ (nlInd ind ++ (rcur :: rest)))))
          = some (v, renderObjRest ind2 ms ++ (nlInd ind ++ (rcur :: rest))) := by
        have := rtVal fuel v ind2 [' ']
          (renderObjRest ind2 ms ++ (nlInd ind ++ (rcur :: rest))) hsv (by decide)
          (numBoundary_objTail ind2 ind ms rest) (by omega)
        simpa using this
      have hsk3 : skipWs (':' :: (' ' :: (renderV ind2 v
            ++ (renderObjRest ind2 ms ++ (nlInd ind ++ (rcur :: rest))))))
          = ':' :: (' ' :: (renderV ind2 v
            ++ (renderObjRest ind2 ms ++ (nlInd ind ++ (rcur :: rest))))) :=
        skipWs_cons_not _ (by decide)
      simp only [pMembers, hmem, hskip2, pStr_quote, hsk3, hpv]
      cases ms with
      | nil =>
          rw [show renderObjRest ind2 ([] : List (String × Value))
                ++ (nlInd ind ++ (rcur :: rest)) = nlInd ind ++ (rcur :: rest)
            from rfl]
          rw [skipWs_wsOnly _ (wsOnly_nlInd ind), skipWs_cons_not _ (by decide)]
          simp [rcur]
      | cons kv2 ms2 =>
          obtain ⟨k2, v2⟩ := kv2
          have hsafe : jsonSafeV v2 = true ∧ jsonSafeO ms2 = true := by
            simp only [jsonSafeO, Bool.and_eq_true] at hsms
            exact ⟨hsms.1.2, hsms.2⟩
          have hflen2 := hf
          simp only [renderObjRest, renderMember, quoteStr, List.length_cons,
            List.length_append, nlInd, List.length_replicate] at hflen2
          rw [show renderObjRest ind2 ((k2, v2) :: ms2) ++ (nlInd ind ++ (rcur :: rest))
              = ',' :: (nlInd ind2 ++ (renderMember ind2 (k2, v2)
                ++ (renderObjRest ind2 ms2 ++ (nlInd ind ++ (rcur :: rest)))))
            from by simp [renderObjRest, List.append_assoc]]
          rw [skipWs_cons_not _ (by decide)]
          have hmlen2 : (renderMember ind2 (k2, v2)).length
              = (k2.data.flatMap escChar).length + (renderV ind2 v2).length + 4 := by
            simp [renderMember, quoteStr, List.length_append, List.length_cons]
            omega
          have hrec := rtMembers fuel k2 v2 ms2 ind2 ind (nlInd ind2) rest hsafe.1
            hsafe.2 (wsOnly_nlInd ind2) (by rw [hmlen2]; omega)
          simp [hrec]

end

theorem fsRead_fsWrite_self (fs : FS) (p s : String) :
    fsRead (fsWrite fs p s) p = some s := by
  induction fs with
  | nil => simp [fsWrite, fsRead]
  | cons e t ih =>
      obtain ⟨p0, c0⟩ := e
      by_cases h : p0 = p <;> simp [fsWrite, fsRead, h, ih]

/-- The codec round trip: `JSON.parse` recovers every JSON-safe
document from its `JSON.stringify(·, null, 2)` serialization. -/
theorem parse_renderDoc (d : Doc) (h : jsonSafeO d = true) :
    parseJSON (renderDoc d) = some (.vObj d) := by
  have hlen : (renderDoc d).length = (renderV 0 (.vObj d)).length := rfl
  have h0 := rtVal ((renderDoc d).length + 1) (.vObj d) 0 [] [] h rfl rfl
    (by rw [hlen]; omega)
  simp only [List.nil_append, List.append_nil] at h0
  simp only [parseJSON]
  rw [show (renderDoc d).data = renderV 0 (.vObj d) from rfl, h0]
  rfl

/-! ### The claims -/

/-- C1: the spec claims that for every non-absent value `v`, `set(k, v)`
then `get(k)` returns a value deep-equal to `v`.  The code loses every
falsy value: after `set("k", 0)` the read `get("k")` evaluates
`this.data[key] || null` and returns `null`, which is not deep-equal to
`0`.  This theorem evaluates the code at that failing input. -/
theorem claim_C1_falsy_value_lost :
    (HelixiaDB.set ⟨"database.json", []⟩ [] "k" (.vNum (.fin 0))).1 = .ok () ∧
    HelixiaDB.has (HelixiaDB.set ⟨"database.json", []⟩ [] "k" (.vNum (.fin 0))).2.1 "k" = true ∧
    HelixiaDB.get (HelixiaDB.set ⟨"database.json", []⟩ [] "k" (.vNum (.fin 0))).2.1 "k" = .vNull ∧
    Value.vNull ≠ Value.vNum (.fin 0) := by decide

/-- C4: `delete(key, value)` on a key whose stored value is not a
sequence fails with `ARRAY_NOT_FOUND` and leaves the store and the
backing file exactly as they were. -/
theorem claim_C4_delete_nonarray (db : DB) (fs : FS) (k : String) (v : Value)
    (h : ∀ l, objGet db.data k ≠ some (.vArr l)) :
    HelixiaDB.delete db fs k v = (.error .ARRAY_NOT_FOUND, db, fs) := by
  rcases hg : objGet db.data k with _ | (_ | b | n | s | l | ms)
  case vArr => exact absurd hg (h l)
  all_goals simp [HelixiaDB.delete, hg]

/-- C4 witness: a store holding a number at the key. -/
theorem claim_C4_witness :
    HelixiaDB.delete ⟨"database.json", [("k", .vNum (.fin 5))]⟩ [] "k" (.vNum (.fin 5))
      = (.error .ARRAY_NOT_FOUND, ⟨"database.json", [("k", .vNum (.fin 5))]⟩, []) :=
  claim_C4_delete_nonarray _ _ _ _ (by intro l hl; simp [objGet] at hl)

/-- C7 counterexample: the claim says `has(k)` is false immediately
after `remove(k)` for every key `k`.  The code's `has` is
`key in this.data`, and `in` consults the prototype chain: at the key
`"toString"` a fresh store accepts `set`, `remove` deletes the own
entry (`get` reports `null` again), yet `has("toString")` remains true
because `Object.prototype.toString` is inherited. -/
theorem claim_C7_counterexample :
    (HelixiaDB.set ⟨"database.json", []⟩ [] "toString" (.vStr "x")).1 = .ok () ∧
    HelixiaDB.has (HelixiaDB.set ⟨"database.json", []⟩ [] "toString"
      (.vStr "x")).2.1 "toString" = true ∧
    objGet (HelixiaDB.remove (HelixiaDB.set ⟨"database.json", []⟩ [] "toString"
      (.vStr "x")).2.1 (HelixiaDB.set ⟨"database.json", []⟩ [] "toString"
      (.vStr "x")).2.2 "toString").2.1.data "toString" = none ∧
    HelixiaDB.has (HelixiaDB.remove (HelixiaDB.set ⟨"database.json", []⟩ [] "toString"
      (.vStr "x")).2.1 (HelixiaDB.set ⟨"database.json", []⟩ [] "toString"
      (.vStr "x")).2.2 "toString").2.1 "toString" = true := by decide

/-- C7 amended: `has(k)` is true immediately after a successful
`set(k, v)` (any non-null value), from any store state; and immediately
after `remove(k)` it reports exactly whether `k` names a property
inherited from `Object.prototype` — false for every ordinary key, true
for the inherited names such as `"toString"`. -/
theorem claim_C7_amended (db db2 : DB) (fs fs2 : FS) (k : String) (v : Value)
    (hv : v ≠ .vNull) :
    HelixiaDB.has (HelixiaDB.set db fs k v).2.1 k = true ∧
    HelixiaDB.has (HelixiaDB.remove db2 fs2 k).2.1 k
      = HelixiaDB.protoProps.contains k := by
  have hb : ¬ (beqV v .vNull = true) := fun hbe => hv ((beqV_iff v .vNull).mp hbe)
  constructor
  · simp only [HelixiaDB.set, if_neg hb]
    simp [HelixiaDB.has, objGet_objSet_self]
  · simp [HelixiaDB.remove, HelixiaDB.has, objGet_objRemove_self]

/-- C7 witness: set then remove of one ordinary key on concrete
stores; `"k"` is not an `Object.prototype` name, so `has` is false
after the removal. -/
theorem claim_C7_witness :
    HelixiaDB.has (HelixiaDB.set ⟨"database.json", []⟩ [] "k" (.vStr "x")).2.1 "k" = true ∧
    HelixiaDB.has (HelixiaDB.remove ⟨"database.json", [("k", .vStr "x")]⟩ [] "k").2.1 "k"
      = false := by
  have h := claim_C7_amended ⟨"database.json", []⟩ ⟨"database.json", [("k", .vStr "x")]⟩
    [] [] "k" (.vStr "x") (by intro h; cases h)
  exact ⟨h.1, by rw [h.2]; decide⟩

/-- C8: `destroy()` removes the backing file and touches nothing else:
the in-memory document is unchanged and every read-only operation
(`get`, `has`, `fetch`, `fetchObject`, `fetchArray`, `all`) observes
exactly what it observed before the call. -/
theorem claim_C8_destroy (db : DB) (fs : FS) (h : fsExists fs db.filePath = true) :
    (HelixiaDB.destroy db fs).1 = .ok () ∧
    (HelixiaDB.destroy db fs).2.1 = db ∧
    fsRead (HelixiaDB.destroy db fs).2.2 db.filePath = none ∧
    (∀ k, HelixiaDB.get (HelixiaDB.destroy db fs).2.1 k = HelixiaDB.get db k) ∧
    (∀ k, HelixiaDB.has (HelixiaDB.destroy db fs).2.1 k = HelixiaDB.has db k) ∧
    (∀ k, HelixiaDB.fetch (HelixiaDB.destroy db fs).2.1 k = HelixiaDB.fetch db k) ∧
    (∀ k sk, HelixiaDB.fetchObject (HelixiaDB.destroy db fs).2.1 k sk
      = HelixiaDB.fetchObject db k sk) ∧
    (∀ k i, HelixiaDB.fetchArray (HelixiaDB.destroy db fs).2.1 k i
      = HelixiaDB.fetchArray db k i) ∧
    HelixiaDB.all (HelixiaDB.destroy db fs).2.1 = HelixiaDB.all db := by
  simp [HelixiaDB.destroy, h, fsRead_fsUnlink_self]

/-- C8 witness: destroying an existing backing file. -/
theorem claim_C8_witness :
    (HelixiaDB.destroy ⟨"database.json", [("k", .vStr "x")]⟩ [("database.json", "f")]).2.1
      = (⟨"database.json", [("k", .vStr "x")]⟩ : DB) ∧
    fsRead (HelixiaDB.destroy ⟨"database.json", [("k", .vStr "x")]⟩
      [("database.json", "f")]).2.2 "database.json" = none := by
  have h := claim_C8_destroy ⟨"database.json", [("k", .vStr "x")]⟩ [("database.json", "f")]
    (by decide)
  exact ⟨h.2.1, h.2.2.1⟩

/-- C9: a key holding a falsy value is a reachable state in which `has`
and `get` disagree: starting from a fresh store, `set("flag", false)`
succeeds, `has("flag")` is true, and `get("flag")` and `fetch("flag")`
both report `null`. -/
theorem claim_C9_falsy_disagreement :
    HelixiaDB.loadData "database.json" []
      = .ok (⟨"database.json", []⟩, [("database.json", renderDoc [])]) ∧
    (HelixiaDB.set ⟨"database.json", []⟩ [("database.json", renderDoc [])] "flag"
      (.vBool false)).1 = .ok () ∧
    HelixiaDB.has (HelixiaDB.set ⟨"database.json", []⟩ [("database.json", renderDoc [])]
      "flag" (.vBool false)).2.1 "flag" = true ∧
    HelixiaDB.get (HelixiaDB.set ⟨"database.json", []⟩ [("database.json", renderDoc [])]
      "flag" (.vBool false)).2.1 "flag" = .vNull ∧
    HelixiaDB.fetch (HelixiaDB.set ⟨"database.json", []⟩ [("database.json", renderDoc [])]
      "flag" (.vBool false)).2.1 "flag" = .vNull := by decide

/-- C10: `delete` and `deleteEach` compare array elements with `===`.
A non-primitive probe (object or array) removes nothing — in particular
a stored element deep-equal to it survives — while a primitive probe
removes exactly the deep-equal elements. -/
theorem claim_C10_strict_identity (db : DB) (fs : FS) (k : String) (l : List Value)
    (v p : Value)
    (hl : objGet db.data k = some (.vArr l))
    (hu : keysUnique db.data = true)
    (hv : isNonPrim v = true)
    (hp : isPrimNonNan p = true) :
    objGet (HelixiaDB.delete db fs k v).2.1.data k = some (.vArr l) ∧
    objGet (HelixiaDB.deleteEach db fs v).2.1.data k = some (.vArr l) ∧
    objGet (HelixiaDB.delete db fs k p).2.1.data k
      = some (.vArr (l.filter (fun item => !beqV item p))) := by
  have hfilter : l.filter (fun item => !strictEq item v) = l :=
    List.filter_eq_self.mpr (fun a _ => by simp [strictEq_nonprim a v hv])
  refine ⟨?_, ?_, ?_⟩
  · simp [HelixiaDB.delete, hl, hfilter, objGet_objSet_self]
  · show objGet (HelixiaDB.docDeleteEach db.data v) k = _
    rw [objGet_docDeleteEach db.data v hu k, hl]
    simp [hfilter]
  · have hcong : l.filter (fun item => !strictEq item p)
        = l.filter (fun item => !beqV item p) :=
      List.filter_congr (fun a _ => by rw [strictEq_prim a p hp])
    simp [HelixiaDB.delete, hl, hcong, objGet_objSet_self]

/-- C3 counterexample: the claim says a stored sequence makes
`deleteKey` and `fetchObject` fail with `ObjectNotFound`.  It does not:
`typeof` of an array is `'object'`, so the shape check passes and
neither operation reports the error. -/
theorem claim_C3_counterexample :
    (HelixiaDB.deleteKey ⟨"database.json", [("k", .vArr [.vNum (.fin 1)])]⟩ []
      "k" "x").1 ≠ .error .OBJECT_NOT_FOUND ∧
    HelixiaDB.fetchObject ⟨"database.json", [("k", .vArr [.vNum (.fin 1)])]⟩
      "k" "x" ≠ .error .OBJECT_NOT_FOUND := by decide

/-- C3 amended: `deleteKey(key, subKey)` and `fetchObject(key, subKey)`
fail with `ObjectNotFound` exactly when the stored value is absent, a
scalar, or `null`; a sequence passes the `typeof` shape check and is
not rejected.  When the value is a non-null mapping, `deleteKey`
removes the sub-key from it (if present) and persists. -/
theorem claim_C3_amended (db : DB) (fs : FS) (k sk : String) :
    ((HelixiaDB.deleteKey db fs k sk).1 = .error .OBJECT_NOT_FOUND ↔
      (typeofIsObject (objGet db.data k) = false ∨ objGet db.data k = some .vNull)) ∧
    (HelixiaDB.fetchObject db k sk = .error .OBJECT_NOT_FOUND ↔
      (typeofIsObject (objGet db.data k) = false ∨ objGet db.data k = some .vNull)) ∧
    (∀ m, objGet db.data k = some (.vObj m) →
      HelixiaDB.deleteKey db fs k sk =
        (.ok (), ⟨db.filePath, objSet db.data k (.vObj (objRemove m sk))⟩,
          fsWrite fs db.filePath (renderDoc (objSet db.data k (.vObj (objRemove m sk))))) ∧
      objGet (objRemove m sk) sk = none) := by
  refine ⟨?_, ?_, ?_⟩
  · rcases hg : objGet db.data k with _ | (_ | b | n | s | l | ms) <;>
      simp [HelixiaDB.deleteKey, hg, typeofIsObject]
  · rcases hg : objGet db.data k with _ | (_ | b | n | s | l | ms) <;>
      simp [HelixiaDB.fetchObject, hg, typeofIsObject]
  · intro m hm
    simp [HelixiaDB.deleteKey, hm, objGet_objRemove_self]

/-- C3 witness: removing a present sub-key from a stored mapping. -/
theorem claim_C3_witness :
    HelixiaDB.deleteKey ⟨"database.json", [("k", .vObj [("a", .vNum (.fin 1))])]⟩ []
      "k" "a" =
      (.ok (), ⟨"database.json",
        objSet [("k", .vObj [("a", .vNum (.fin 1))])] "k"
          (.vObj (objRemove [("a", .vNum (.fin 1))] "a"))⟩,
        fsWrite [] "database.json"
          (renderDoc (objSet [("k", .vObj [("a", .vNum (.fin 1))])] "k"
            (.vObj (objRemove [("a", .vNum (.fin 1))] "a"))))) ∧
    objGet (objRemove [("a", .vNum (.fin 1))] "a") "a" = none := by
  have h := (claim_C3_amended ⟨"database.json", [("k", .vObj [("a", .vNum (.fin 1))])]⟩
    [] "k" "a").2.2 [("a", .vNum (.fin 1))] (by decide)
  exact h

/-- C5: one call to `deleteEach(value)` performs the whole-document
transformation in one pass with a single persist at the end, and on
each key it filters `value` out of sequence entries, drops non-sequence
entries equal to `value`, and leaves everything else alone. -/
theorem claim_C5_deleteEach (db : DB) (fs : FS) (v : Value)
    (hu : keysUnique db.data = true) :
    HelixiaDB.deleteEach db fs v =
      (.ok (), ⟨db.filePath, HelixiaDB.docDeleteEach db.data v⟩,
        fsWrite fs db.filePath (renderDoc (HelixiaDB.docDeleteEach db.data v))) ∧
    ∀ k, objGet (HelixiaDB.docDeleteEach db.data v) k =
      match objGet db.data k with
      | some (.vArr l) => some (.vArr (l.filter (fun item => !strictEq item v)))
      | some w => if strictEq w v then none else some w
      | none => none :=
  ⟨rfl, fun k => objGet_docDeleteEach db.data v hu k⟩

/-- C5 witness: deleting `1` everywhere filters it from the sequence at
`"a"`, drops the scalar entry `"b"`, and keeps `"c"`. -/
theorem claim_C5_witness :
    objGet (HelixiaDB.docDeleteEach
      [("a", .vArr [.vNum (.fin 1), .vNum (.fin 2), .vNum (.fin 1)]),
       ("b", .vNum (.fin 1)), ("c", .vStr "z")] (.vNum (.fin 1))) "a"
      = some (.vArr [.vNum (.fin 2)]) ∧
    objGet (HelixiaDB.docDeleteEach
      [("a", .vArr [.vNum (.fin 1), .vNum (.fin 2), .vNum (.fin 1)]),
       ("b", .vNum (.fin 1)), ("c", .vStr "z")] (.vNum (.fin 1))) "b" = none ∧
    objGet (HelixiaDB.docDeleteEach
      [("a", .vArr [.vNum (.fin 1), .vNum (.fin 2), .vNum (.fin 1)]),
       ("b", .vNum (.fin 1)), ("c", .vStr "z")] (.vNum (.fin 1))) "c"
      = some (.vStr "z") := by
  have h := claim_C5_deleteEach
    ⟨"database.json", [("a", .vArr [.vNum (.fin 1), .vNum (.fin 2), .vNum (.fin 1)]),
      ("b", .vNum (.fin 1)), ("c", .vStr "z")]⟩ [] (.vNum (.fin 1)) (by decide)
  exact ⟨(h.2 "a").trans (by decide), (h.2 "b").trans (by decide),
    (h.2 "c").trans (by decide)⟩

/-- C2: the claim requires `math(key, "/", 0)` to fail with a
division-by-zero error and leave the value unchanged.  The cached
variant (part_003) has no such check: on `{counter: 10}` it performs
the JavaScript division, returns `Infinity`, overwrites the value in
memory and persists it (as `null`, which is how `Infinity` serializes).
The reload-per-operation variant (index.js) has the check and behaves
as claimed: it fails and leaves the file untouched. -/
theorem claim_C2_div_zero_divergence :
    HelixiaDB.math ⟨"database.json", [("counter", .vNum (.fin 10))]⟩
      [("database.json", renderDoc [("counter", .vNum (.fin 10))])]
      "counter" "/" (.fin 0)
      = (.ok .posInf, ⟨"database.json", [("counter", .vNum .posInf)]⟩,
        [("database.json", renderDoc [("counter", .vNum .posInf)])]) ∧
    V2.math "database.json"
      [("database.json", renderDoc [("counter", .vNum (.fin 10))])]
      "counter" "/" (.fin 0)
      = (none, [("database.json", renderDoc [("counter", .vNum (.fin 10))])]) := by decide

/-- C6 counterexample: the claim quantifies over every document a
store has persisted.  The store persists `{a: Infinity}` (a public
`set` accepts `Infinity`, which is truthy and not null), the file then
holds `{"a": null}` — `JSON.stringify` turns `Infinity` into `null` —
and a fresh store loaded from that same file reports `{a: null}`,
which is not deep-equal to the persisted document. -/
theorem claim_C6_counterexample :
    (HelixiaDB.set ⟨"database.json", []⟩ (fsWrite [] "database.json" (renderDoc []))
      "a" (.vNum .posInf)).1 = .ok () ∧
    (HelixiaDB.set ⟨"database.json", []⟩ (fsWrite [] "database.json" (renderDoc []))
      "a" (.vNum .posInf)).2.1.data = [("a", .vNum .posInf)] ∧
    fsRead (HelixiaDB.set ⟨"database.json", []⟩
      (fsWrite [] "database.json" (renderDoc [])) "a" (.vNum .posInf)).2.2
      "database.json" = some (renderDoc [("a", .vNum .posInf)]) ∧
    HelixiaDB.loadData "database.json"
      (HelixiaDB.set ⟨"database.json", []⟩ (fsWrite [] "database.json" (renderDoc []))
        "a" (.vNum .posInf)).2.2
      = .ok (⟨"database.json", [("a", .vNull)]⟩,
        (HelixiaDB.set ⟨"database.json", []⟩ (fsWrite [] "database.json" (renderDoc []))
          "a" (.vNum .posInf)).2.2) ∧
    ([("a", Value.vNull)] : Doc) ≠ [("a", Value.vNum .posInf)] := by decide

/-- C6 amended: for every persisted document containing no non-finite
number (`JSON.stringify` serializes `Infinity`, `-Infinity` and `NaN`
as `null`, so those do not round-trip), a fresh store constructed
against the same backing file recovers, through `all()`, a document
deep-equal to the one last persisted. -/
theorem claim_C6_roundtrip (d : Doc) (path : String) (fs : FS)
    (h : jsonSafeO d = true) :
    HelixiaDB.loadData path (HelixiaDB.saveData ⟨path, d⟩ fs)
      = .ok (⟨path, d⟩, HelixiaDB.saveData ⟨path, d⟩ fs) ∧
    HelixiaDB.all ⟨path, d⟩ = d := by
  constructor
  · simp only [HelixiaDB.loadData, HelixiaDB.saveData, fsRead_fsWrite_self,
      parse_renderDoc d h]
  · rfl

/-- C6 witness: a document with a negative number, an escaped string,
a nested array and a nested object survives the round trip. -/
theorem claim_C6_witness :
    HelixiaDB.loadData "database.json"
      (HelixiaDB.saveData ⟨"database.json",
        [("a", .vNum (.fin (-12))), ("b", .vArr [.vStr "x\"y", .vNull]),
         ("c", .vObj [("d", .vBool true)])]⟩ [])
      = .ok (⟨"database.json",
        [("a", .vNum (.fin (-12))), ("b", .vArr [.vStr "x\"y", .vNull]),
         ("c", .vObj [("d", .vBool true)])]⟩,
        HelixiaDB.saveData ⟨"database.json",
          [("a", .vNum (.fin (-12))), ("b", .vArr [.vStr "x\"y", .vNull]),
           ("c", .vObj [("d", .vBool true)])]⟩ []) :=
  (claim_C6_roundtrip
    [("a", .vNum (.fin (-12))), ("b", .vArr [.vStr "x\"y", .vNull]),
     ("c", .vObj [("d", .vBool true)])] "database.json" [] (by decide)).1

/-- C10 witness: the array holds an object deep-equal to the probe and
the number `1`; the object probe removes nothing, the number probe
removes the number. -/
theorem claim_C10_witness :
    objGet (HelixiaDB.delete
      ⟨"database.json", [("k", .vArr [.vObj [("a", .vNum (.fin 1))], .vNum (.fin 1)])]⟩
      [] "k" (.vObj [("a", .vNum (.fin 1))])).2.1.data "k"
      = some (.vArr [.vObj [("a", .vNum (.fin 1))], .vNum (.fin 1)]) ∧
    objGet (HelixiaDB.delete
      ⟨"database.json", [("k", .vArr [.vObj [("a", .vNum (.fin 1))], .vNum (.fin 1)])]⟩
      [] "k" (.vNum (.fin 1))).2.1.data "k"
      = some (.vArr [.vObj [("a", .vNum (.fin 1))]]) := by
  have h := claim_C10_strict_identity
    ⟨"database.json", [("k", .vArr [.vObj [("a", .vNum (.fin 1))], .vNum (.fin 1)])]⟩
    [] "k" [.vObj [("a", .vNum (.fin 1))], .vNum (.fin 1)]
    (.vObj [("a", .vNum (.fin 1))]) (.vNum (.fin 1))
    (by decide) (by decide) (by decide) (by decide)
  exact ⟨h.1, h.2.2.trans (by decide)⟩

end Helixia
